import Mathlib

/-!
Verification of the `vigenere_cracker` repository.

The file embeds the three Rust source files shallowly:

* `src/attempt_order.rs` — the ranked mutation enumerator (`AttemptOrder`),
  embedded as a state record with a step function `AttemptOrder.next`.
  Rust panics (division/remainder by zero, out-of-bounds `Vec` indexing and
  `Vec::insert`) are modelled by `Option`/`StepResult.crashed`; `usize`
  subtraction is modelled by truncated `Nat` subtraction, which agrees with
  Rust on the domain reachable by the claims.
* `src/main.rs` — the encryption/decryption helpers.
* `src/dict_tree.rs` — the dictionary prefix tree.

Theorems about the enumerator are stated against a fuel-based driver `run`
that pulls `next` repeatedly, mirroring Rust's `Iterator` protocol.
-/

namespace Vigenere

/-! ## Embedding of `src/attempt_order.rs` -/

/-- The `AttemptOrder` struct of `attempt_order.rs`. -/
structure AttemptOrder where
  combination : List Nat
  combination_num : Nat
  key_length : Nat
  num_letters : Nat
  num_changes : Nat
  is_first : Bool
deriving DecidableEq

/-- `AttemptOrder::new`. -/
def AttemptOrder.new (key_length num_letters : Nat) : AttemptOrder :=
  { combination := List.replicate key_length 0
    combination_num := 0
    key_length := key_length
    num_letters := num_letters
    num_changes := 0
    is_first := true }

/-- Pointwise addition of a partial combination into the stored combination,
as in `AttemptOrder::add_combination_part`: entries of `part` are added at the
indices `0..part.len()` of `comb`.  `none` models the Rust index-out-of-bounds
panic when `part` is longer than `comb`. -/
def addPointwise : List Nat → List Nat → Option (List Nat)
  | comb, [] => some comb
  | [], _ :: _ => none
  | c :: cs, p :: ps => (addPointwise cs ps).map (fun r => (c + p) :: r)

/-- `AttemptOrder::add_combination_part` (mutates `self.combination`). -/
def AttemptOrder.add_combination_part (s : AttemptOrder) (combo : List Nat) :
    Option AttemptOrder :=
  (addPointwise s.combination combo).map (fun l => { s with combination := l })

/-- `AttemptOrder::get_combination_part`.  `rows = key_length - change_num + 1`
is at least 1 as a `Nat`, so the index `n % rows` is always in bounds; the
`none` branch models the Rust remainder-by-zero panic when
`cols = num_letters - 1` is zero. -/
def AttemptOrder.get_combination_part (s : AttemptOrder) (change_num n : Nat) :
    Option (List Nat) :=
  let rows := s.key_length - change_num + 1
  let cols := s.num_letters - 1
  if cols = 0 then none
  else some ((List.replicate rows 0).set (n % rows) ((n / rows) % cols + 1))

/-- `AttemptOrder::get_part_n`: iterated integer division of
`combination_num` by `(key_length - i) * (num_letters - 1)` for
`i ∈ [change_num, num_changes)`.  `none` models division by zero. -/
def AttemptOrder.get_part_n (s : AttemptOrder) (change_num : Nat) : Option Nat :=
  (List.range' change_num (s.num_changes - change_num)).foldlM
    (fun n i =>
      let d := (s.key_length - i) * (s.num_letters - 1)
      if d = 0 then none else some (n / d))
    s.combination_num

/-- `Vec::insert(i, a)`: `none` models the panic when `i` exceeds the length. -/
def insertAt : Nat → Nat → List Nat → Option (List Nat)
  | 0, a, l => some (a :: l)
  | _ + 1, _, [] => none
  | n + 1, a, x :: xs => (insertAt n a xs).map (fun l => x :: l)

/-- The loop body of `stretch_vec`: insert a `0` at index `i` of the partial
vector whenever entry `i` of the stored combination is positive. -/
def stretchF (acc : List Nat) (p : Nat × Nat) : Option (List Nat) :=
  if p.2 > 0 then insertAt p.1 0 acc else some acc

/-- `AttemptOrder::stretch_vec`: for every index `i` with
`self.combination[i] > 0`, insert a `0` at index `i` of `vec`. -/
def AttemptOrder.stretch_vec (s : AttemptOrder) (vec : List Nat) :
    Option (List Nat) :=
  s.combination.enum.foldlM stretchF vec

/-- The inner scan of `AttemptOrder::is_last`: `p :: _` with `p > 0` must equal
`maxVal` (`num_letters - 1`), and once a positive entry has been seen a zero
entry returns `false`. -/
def isLastScan (maxVal : Nat) : List Nat → Bool → Bool
  | [], _ => true
  | p :: ps, seen =>
    if p > 0 then
      if p ≠ maxVal then false else isLastScan maxVal ps true
    else if seen then false
    else isLastScan maxVal ps seen

/-- `AttemptOrder::is_last`. -/
def AttemptOrder.is_last (s : AttemptOrder) : Bool :=
  if s.num_changes = 0 then true
  else isLastScan (s.num_letters - 1) s.combination false

/-- The body of the regeneration loop of `next`, and the loop itself:
`self.combination = vec![0; key_length]` followed by
`for i in (0..num_changes).rev() { ... }` with `change_num = num_changes - i`.
Only `combination` changes during the loop, so the other fields read by
`get_part_n`/`get_combination_part` are stable. -/
def genBody (t : AttemptOrder) (i : Nat) : Option AttemptOrder :=
  (t.get_part_n (t.num_changes - i)).bind (fun n =>
    (t.get_combination_part (t.num_changes - i) n).bind (fun part =>
      (if part.length < t.key_length then t.stretch_vec part
        else some part).bind (fun part => t.add_combination_part part)))

def AttemptOrder.genLoop (s : AttemptOrder) : Option AttemptOrder :=
  (List.range s.num_changes).reverse.foldlM genBody
    { s with combination := List.replicate s.key_length 0 }

/-- Result of one `next()` call: a yielded vector with the successor state,
iterator exhaustion (`done`, state unchanged), or a Rust panic (`crashed`). -/
inductive StepResult where
  | crashed : StepResult
  | done : AttemptOrder → StepResult
  | yield : List Nat → AttemptOrder → StepResult
deriving DecidableEq

/-- `<AttemptOrder as Iterator>::next`. -/
def AttemptOrder.next (s : AttemptOrder) : StepResult :=
  if s.is_first then
    .yield s.combination { s with is_first := false, combination_num := 0 }
  else
    let advanced : Option AttemptOrder :=
      if s.is_last then
        if s.num_changes = s.key_length then none
        else some { s with combination_num := 0, num_changes := s.num_changes + 1 }
      else some { s with combination_num := s.combination_num + 1 }
    match advanced with
    | none => .done s
    | some s1 =>
      match s1.genLoop with
      | none => .crashed
      | some s2 => .yield s2.combination s2

/-- Result of pulling `next()` repeatedly: either the fuel ran out, or a call
panicked after the listed outputs, or the iterator returned `None` after the
listed outputs, with the state at exhaustion. -/
inductive RunResult where
  | outOfFuel : RunResult
  | crashedAfter : List (List Nat) → RunResult
  | finished : List (List Nat) → AttemptOrder → RunResult
deriving DecidableEq

/-- Pull `next()` up to `fuel` times, collecting the yielded vectors. -/
def run : Nat → AttemptOrder → RunResult
  | 0, _ => .outOfFuel
  | fuel + 1, s =>
    match s.next with
    | .crashed => .crashedAfter []
    | .done sf => .finished [] sf
    | .yield v s1 =>
      match run fuel s1 with
      | .outOfFuel => .outOfFuel
      | .crashedAfter l => .crashedAfter (v :: l)
      | .finished l sf => .finished (v :: l) sf

/-- Just the output sequence of a completed run. -/
def runOut (fuel : Nat) (s : AttemptOrder) : Option (List (List Nat)) :=
  match run fuel s with
  | .finished l _ => some l
  | _ => none

/-! ## Pure description of the enumerator

The generation loop of `next` is a mixed-radix decoding: at change level `c`
with enumeration index `m`, slot `j` (for `j = 1..c`) extracts a digit of `m`
and uses it to write value `(digit / rows) % (A-1) + 1` into the
`(digit % rows)`-th still-zero entry of the vector, where
`rows = L - j + 1`.  The definitions below restate that loop purely; they are
proved equal to `AttemptOrder.genLoop` further down. -/

/-- Number of nonzero entries (the change level / Hamming weight). -/
def weight : List Nat → Nat
  | [] => 0
  | 0 :: xs => weight xs
  | (_ + 1) :: xs => weight xs + 1

/-- Number of zero entries. -/
def zeroCount : List Nat → Nat
  | [] => 0
  | 0 :: xs => zeroCount xs + 1
  | (_ + 1) :: xs => zeroCount xs

/-- Write `v` into the `s`-th zero entry of the list (counting zeros from the
left, starting at 0).  Out-of-range `s` leaves the list unchanged. -/
def setNthZero : List Nat → Nat → Nat → List Nat
  | [], _, _ => []
  | 0 :: xs, 0, v => v :: xs
  | 0 :: xs, s + 1, v => 0 :: setNthZero xs s v
  | (x + 1) :: xs, s, v => (x + 1) :: setNthZero xs s v

/-- The divisor applied to `m` at slot `j` of level `c`
(`get_part_n`'s iterated division, as a single product). -/
def decodeDivisor (L A j c : Nat) : Nat :=
  ((List.range' j (c - j)).map (fun i => (L - i) * (A - 1))).prod

/-- One slot of the pure decoding loop. -/
def decodeStep (L A c m : Nat) (comb : List Nat) (j : Nat) : List Nat :=
  let rows := L - j + 1
  let n := m / decodeDivisor L A j c
  setNthZero comb (n % rows) ((n / rows) % (A - 1) + 1)

/-- The vector produced at level `c`, index `m`: the pure form of
`AttemptOrder.genLoop`. -/
def decodeVec (L A c m : Nat) : List Nat :=
  (List.range' 1 c).foldl (decodeStep L A c m) (List.replicate L 0)

/-- Closed form of the index of the first vector at level `c` whose entries
are `A-1` on a contiguous tail (which is where `is_last` fires).  `t` is the
number of leading zeros of that vector (`t = L - c`); slot `k+1` contributes
digit `(A-2)*(L-k) + t` in radix `(L-k)*(A-1)`. -/
def mstarAux (L A t : Nat) : Nat → Nat
  | 0 => 0
  | k + 1 => mstarAux L A t k * ((L - k) * (A - 1)) + ((A - 2) * (L - k) + t)

/-- The last enumeration index actually produced at level `c`. -/
def mstar (L A c : Nat) : Nat := mstarAux L A (L - c) c

/-- The state of the enumerator right after it yielded the vector of level
`c`, index `m`. -/
def stateAt (L A c m : Nat) : AttemptOrder :=
  { combination := decodeVec L A c m
    combination_num := m
    key_length := L
    num_letters := A
    num_changes := c
    is_first := false }

/-- The outputs produced after the vector of level `c`, index `m`,
until exhaustion. -/
def rest (L A c m : Nat) : List (List Nat) :=
  if m < mstar L A c then decodeVec L A c (m + 1) :: rest L A c (m + 1)
  else if c < L then decodeVec L A (c + 1) 0 :: rest L A (c + 1) 0
  else []
termination_by (L - c, mstar L A c - m)
decreasing_by
  · apply Prod.Lex.right
    omega
  · apply Prod.Lex.left
    omega

/-- The complete output sequence of `AttemptOrder::new(L, A)` for `A ≥ 2`. -/
def fullOutputs (L A : Nat) : List (List Nat) :=
  List.replicate L 0 :: rest L A 0 0

/-- The outputs produced at level `c`. -/
def levelList (L A c : Nat) : List (List Nat) :=
  (List.range (mstar L A c + 1)).map (decodeVec L A c)

/-- Replace the zero entries of `comb`, left to right, by the entries of
`part`: the combined effect of `stretch_vec` (which shifts `part` so that its
entries line up with the zero entries of the stored combination) followed by
`add_combination_part`. -/
def mergeZeros : List Nat → List Nat → List Nat
  | [], _ => []
  | 0 :: cs, p :: ps => p :: mergeZeros cs ps
  | 0 :: cs, [] => 0 :: mergeZeros cs []
  | (x + 1) :: cs, ps => (x + 1) :: mergeZeros cs ps

/-- The canonical (ascending-position) enumeration index of a vector, read
from the reversed vector: a nonzero entry `voff + 1` standing (in the
original order) after the prefix whose reverse is `rest` contributes the
digit `voff * r + zeroCount rest` in radix `r * (A-1)`, where
`r = L - c + 1` and `c = weight rest + 1` is the slot number. -/
def encR (L A : Nat) : List Nat → Nat
  | [] => 0
  | 0 :: rest => encR L A rest
  | (voff + 1) :: rest =>
    encR L A rest * ((L - (weight rest + 1) + 1) * (A - 1)) +
      (voff * (L - (weight rest + 1) + 1) + zeroCount rest)

/-- All length-`L` vectors with entries in `[0, A-1]`. -/
def allVecs : Nat → Nat → List (List Nat)
  | 0, _ => [[]]
  | L + 1, A => (List.range A).flatMap (fun x => (allVecs L A).map (fun v => x :: v))

/-- All length-`L` vectors with entries in `[0, A-1]` and exactly `c` nonzero
entries. -/
def weightVecs (A : Nat) : Nat → Nat → List (List Nat)
  | 0, 0 => [[]]
  | 0, _ + 1 => []
  | L + 1, 0 => (weightVecs A L 0).map (fun v => 0 :: v)
  | L + 1, c + 1 =>
    (weightVecs A L (c + 1)).map (fun v => 0 :: v) ++
      (List.range (A - 1)).flatMap
        (fun voff => (weightVecs A L c).map (fun v => (voff + 1) :: v))

/-! ## Embedding of the cipher helpers of `src/main.rs` -/

/-- `decrypt_char`: `(input + 26 - key) % 26`. -/
def decrypt_char (input key : Nat) : Nat := (input + 26 - key) % 26

/-- `encrypt_char`: `(input + key) % 26`. -/
def encrypt_char (input key : Nat) : Nat := (input + key) % 26

/-- `decrypt_str`: maps `decrypt_char` over the input, cycling the key by
`i % key.len()`.  Rust's `key[i % key.len()]` panics on an empty key; here
`List.getD` with default `0` is used — the claims only concern nonempty keys,
where the two agree. -/
def decrypt_str (input key : List Nat) : List Nat :=
  input.enum.map (fun p => decrypt_char p.2 (key.getD (p.1 % key.length) 0))

/-- `encrypt_str`, the mirror image of `decrypt_str`. -/
def encrypt_str (input key : List Nat) : List Nat :=
  input.enum.map (fun p => encrypt_char p.2 (key.getD (p.1 % key.length) 0))

/-! ## Embedding of `src/dict_tree.rs` -/

/-- The `Node` struct: 26 optional children. -/
inductive Node where
  | mk : List (Option Node) → Node

/-- Field accessor for `Node`. -/
def Node.children : Node → List (Option Node)
  | .mk c => c

/-- A fresh node, as built by `DictTree::new` and `Node::add`:
26 empty children. -/
def emptyNode : Node := .mk (List.replicate 26 none)

/-- `Node::add`, by recursion on the word: pop the front symbol, create the
child if missing, recurse on the rest.  `none` models the index-out-of-bounds
panic for a symbol `≥ 26`. -/
def nodeAdd : List Nat → Node → Option Node
  | [], n => some n
  | x :: xs, n =>
    match n.children.get? x with
    | none => none
    | some (some child) =>
      (nodeAdd xs child).map (fun c => Node.mk (n.children.set x (some c)))
    | some none =>
      (nodeAdd xs emptyNode).map (fun c => Node.mk (n.children.set x (some c)))

/-- `Node::exists`, by recursion on the string: a one-symbol string tests the
presence of the child; otherwise the front symbol is popped and the walk
recurses.  The `[]` case models `Vec::remove(0)` panicking on an empty
vector; an out-of-range symbol models the indexing panic. -/
def nodeExists : List Nat → Node → Option Bool
  | [], _ => none
  | [x], n => (n.children.get? x).map Option.isSome
  | x :: xs, n =>
    match n.children.get? x with
    | none => none
    | some none => some false
    | some (some child) => nodeExists xs child

/-- `DictTree::new`: add every word of the dictionary, in order, to a fresh
head node. -/
def dictTreeNew (dict : List (List Nat)) : Option Node :=
  dict.foldlM (fun h w => nodeAdd w h) emptyNode

/-- `DictTree::contains`. -/
def dictContains (dict : List (List Nat)) (s : List Nat) : Option Bool :=
  (dictTreeNew dict).bind (fun t => nodeExists s t)

/-- The walk described by `s` stays inside the tree (semantic description of
the node set). -/
def hasPath : List Nat → Node → Prop
  | [], _ => True
  | x :: xs, n => ∃ c, n.children.get? x = some (some c) ∧ hasPath xs c

/-- Every node reachable in the tree has exactly 26 children. -/
inductive WfNode : Node → Prop where
  | mk : ∀ children : List (Option Node), children.length = 26 →
    (∀ c : Node, some c ∈ children → WfNode c) → WfNode (Node.mk children)

/-- `s` is a (not necessarily strict) prefix of `w`. -/
def prefixOfWord (s w : List Nat) : Prop := ∃ tl, w = s ++ tl

/-! ## Basic lemmas about `weight`, `zeroCount`, `setNthZero` -/

theorem weight_append (l1 l2 : List Nat) :
    weight (l1 ++ l2) = weight l1 + weight l2 := by
  induction l1 with
  | nil => simp [weight]
  | cons x xs ih => cases x <;> simp [weight, ih] <;> omega

theorem zeroCount_append (l1 l2 : List Nat) :
    zeroCount (l1 ++ l2) = zeroCount l1 + zeroCount l2 := by
  induction l1 with
  | nil => simp [zeroCount]
  | cons x xs ih => cases x <;> simp [zeroCount, ih] <;> omega

theorem weight_add_zeroCount (l : List Nat) :
    weight l + zeroCount l = l.length := by
  induction l with
  | nil => simp [weight, zeroCount]
  | cons x xs ih => cases x <;> simp [weight, zeroCount] <;> omega

theorem weight_replicate_zero (n : Nat) : weight (List.replicate n 0) = 0 := by
  induction n with
  | zero => simp [weight]
  | succ k ih => rw [List.replicate_succ]; simpa [weight] using ih

theorem zeroCount_replicate_zero (n : Nat) :
    zeroCount (List.replicate n 0) = n := by
  have := weight_add_zeroCount (List.replicate n 0)
  rw [weight_replicate_zero] at this
  simpa using this

theorem weight_le_length (l : List Nat) : weight l ≤ l.length := by
  have := weight_add_zeroCount l
  omega

theorem weight_eq_zero (l : List Nat) (h : weight l = 0) :
    l = List.replicate l.length 0 := by
  induction l with
  | nil => simp
  | cons x xs ih =>
    cases x with
    | zero =>
      simp only [weight] at h
      simp only [List.length_cons, List.replicate_succ]
      exact congrArg (fun l => 0 :: l) (ih h)
    | succ y => simp [weight] at h

theorem weight_replicate (n v : Nat) :
    weight (List.replicate n (v + 1)) = n := by
  induction n with
  | zero => simp [weight]
  | succ k ih => simp [List.replicate_succ, weight, ih]

theorem weight_reverse (l : List Nat) : weight l.reverse = weight l := by
  induction l with
  | nil => rfl
  | cons x xs ih =>
    cases x <;> simp [List.reverse_cons, weight_append, weight, ih]

theorem zeroCount_reverse (l : List Nat) : zeroCount l.reverse = zeroCount l := by
  induction l with
  | nil => rfl
  | cons x xs ih =>
    cases x <;> simp [List.reverse_cons, zeroCount_append, zeroCount, ih]

theorem length_setNthZero (l : List Nat) (s v : Nat) :
    (setNthZero l s v).length = l.length := by
  induction l generalizing s with
  | nil => rfl
  | cons x xs ih =>
    cases x with
    | zero => cases s <;> simp [setNthZero, ih]
    | succ y => simp [setNthZero, ih]

/-- Where `setNthZero` writes: the list decomposes around its `s`-th zero. -/
theorem setNthZero_decomp (l : List Nat) (s v : Nat) (h : s < zeroCount l) :
    ∃ ys zs, l = ys ++ 0 :: zs ∧ zeroCount ys = s ∧
      setNthZero l s v = ys ++ v :: zs := by
  induction l generalizing s with
  | nil => simp [zeroCount] at h
  | cons x xs ih =>
    cases x with
    | zero =>
      cases s with
      | zero => exact ⟨[], xs, by simp [setNthZero, zeroCount]⟩
      | succ s' =>
        simp only [zeroCount] at h
        obtain ⟨ys, zs, h1, h2, h3⟩ := ih s' (by omega)
        exact ⟨0 :: ys, zs, by simp [h1], by simp [zeroCount, h2],
          by simp [setNthZero, h3]⟩
    | succ y =>
      simp only [zeroCount] at h
      obtain ⟨ys, zs, h1, h2, h3⟩ := ih s h
      exact ⟨(y + 1) :: ys, zs, by simp [h1], by simp [zeroCount, h2],
        by simp [setNthZero, h3]⟩

/-- `setNthZero` at the zero separating `ys` from `zs`. -/
theorem setNthZero_append (ys zs : List Nat) (v : Nat) :
    setNthZero (ys ++ 0 :: zs) (zeroCount ys) v = ys ++ v :: zs := by
  induction ys with
  | nil => simp [zeroCount, setNthZero]
  | cons x xs ih =>
    cases x <;> simp [zeroCount, setNthZero, ih]

theorem weight_setNthZero (l : List Nat) (s v : Nat) (h : s < zeroCount l) :
    weight (setNthZero l s (v + 1)) = weight l + 1 := by
  obtain ⟨ys, zs, h1, _, h3⟩ := setNthZero_decomp l s (v + 1) h
  subst h1
  rw [h3, weight_append, weight_append]
  simp [weight]
  omega

theorem zeroCount_setNthZero (l : List Nat) (s v : Nat) (h : s < zeroCount l) :
    zeroCount (setNthZero l s (v + 1)) + 1 = zeroCount l := by
  obtain ⟨ys, zs, h1, _, h3⟩ := setNthZero_decomp l s (v + 1) h
  subst h1
  rw [h3, zeroCount_append, zeroCount_append]
  simp [zeroCount]
  omega

theorem mem_setNthZero (l : List Nat) (s v x : Nat) (h : s < zeroCount l)
    (hx : x ∈ setNthZero l s v) : x ∈ l ∨ x = v := by
  obtain ⟨ys, zs, h1, _, h3⟩ := setNthZero_decomp l s v h
  subst h1
  rw [h3] at hx
  simp at hx ⊢
  tauto

/-- A list whose entries are all zero is a `replicate`. -/
theorem zeroCount_full (l : List Nat) (h : zeroCount l = l.length) :
    l = List.replicate l.length 0 := by
  have := weight_add_zeroCount l
  exact weight_eq_zero l (by omega)

/-- The last nonzero entry of a list of positive weight. -/
theorem lastNonzero_decomp (v : List Nat) (h : weight v ≠ 0) :
    ∃ ys x a, v = ys ++ (x + 1) :: List.replicate a 0 := by
  induction v with
  | nil => simp [weight] at h
  | cons y ys ih =>
    by_cases hw : weight ys = 0
    · cases y with
      | zero => simp [weight] at h; omega
      | succ z =>
        refine ⟨[], z, ys.length, ?_⟩
        simpa using congrArg (fun l => (z + 1) :: l) (weight_eq_zero ys hw)
    · obtain ⟨ys', x, a, h1⟩ := ih hw
      exact ⟨y :: ys', x, a, by simp [h1]⟩

end Vigenere

namespace Vigenere

/-! ## The stretch/add loop computes `mergeZeros` -/

theorem mergeZeros_replicate (cs : List Nat) :
    mergeZeros cs (List.replicate (zeroCount cs) 0) = cs := by
  induction cs with
  | nil => rfl
  | cons x xs ih =>
    cases x with
    | zero => simp [zeroCount, List.replicate_succ, mergeZeros, ih]
    | succ y => simp [zeroCount, mergeZeros, ih]

theorem mergeZeros_set (comb : List Nat) (s v : Nat) (h : s < zeroCount comb) :
    mergeZeros comb ((List.replicate (zeroCount comb) 0).set s v) =
      setNthZero comb s v := by
  induction comb generalizing s with
  | nil => simp [zeroCount] at h
  | cons x xs ih =>
    cases x with
    | zero =>
      rw [show zeroCount (0 :: xs) = zeroCount xs + 1 from rfl,
        List.replicate_succ]
      cases s with
      | zero => simp [mergeZeros, setNthZero, mergeZeros_replicate]
      | succ s' =>
        simp only [zeroCount] at h
        simp [mergeZeros, setNthZero, ih s' (by omega)]
    | succ y =>
      simp only [zeroCount] at h
      rw [show zeroCount ((y + 1) :: xs) = zeroCount xs from rfl]
      simp [mergeZeros, setNthZero, ih s h]

theorem stretchFold_shift (cs : List Nat) (k a : Nat) (acc : List Nat) :
    (List.enumFrom (k + 1) cs).foldlM stretchF (a :: acc) =
      ((List.enumFrom k cs).foldlM stretchF acc).map (fun l => a :: l) := by
  induction cs generalizing k acc with
  | nil => simp [List.enumFrom]
  | cons c cs ih =>
    simp only [List.enumFrom, List.foldlM_cons]
    by_cases hc : c > 0
    · have hstep : stretchF (a :: acc) (k + 1, c) =
          (stretchF acc (k, c)).map (fun l => a :: l) := by
        simp [stretchF, hc, insertAt]
      rw [hstep]
      cases h : stretchF acc (k, c) with
      | none => simp
      | some acc2 => simp [ih]
    · have h1 : stretchF (a :: acc) (k + 1, c) = some (a :: acc) := by
        simp [stretchF, hc]
      have h2 : stretchF acc (k, c) = some acc := by
        simp [stretchF, hc]
      rw [h1, h2]
      simp [ih]

theorem stretch_add (comb part : List Nat) (h : part.length = zeroCount comb) :
    ∃ part2, comb.enum.foldlM stretchF part = some part2 ∧
      addPointwise comb part2 = some (mergeZeros comb part) := by
  induction comb generalizing part with
  | nil =>
    have hp : part = [] := by
      cases part with
      | nil => rfl
      | cons p ps => simp [zeroCount] at h
    subst hp
    exact ⟨[], by simp [List.enum], by simp [addPointwise, mergeZeros]⟩
  | cons x xs ih =>
    cases x with
    | zero =>
      obtain ⟨p, ps, rfl⟩ : ∃ p ps, part = p :: ps := by
        cases part with
        | nil => simp [zeroCount] at h
        | cons p ps => exact ⟨p, ps, rfl⟩
      have hps : ps.length = zeroCount xs := by
        simp [zeroCount] at h
        omega
      obtain ⟨part2, hfold, hadd⟩ := ih ps hps
      refine ⟨p :: part2, ?_, ?_⟩
      · calc (0 :: xs).enum.foldlM stretchF (p :: ps)
            = (List.enumFrom 1 xs).foldlM stretchF (p :: ps) := by
              simp [List.enum, List.enumFrom, List.foldlM_cons, stretchF]
          _ = ((List.enumFrom 0 xs).foldlM stretchF ps).map
                (fun l => p :: l) := stretchFold_shift xs 0 p ps
          _ = some (p :: part2) := by
              rw [show (List.enumFrom 0 xs) = xs.enum from rfl, hfold]
              rfl
      · simp [addPointwise, hadd, mergeZeros]
    | succ y =>
      have hlen : part.length = zeroCount xs := by
        simpa [zeroCount] using h
      obtain ⟨part2, hfold, hadd⟩ := ih part hlen
      refine ⟨0 :: part2, ?_, ?_⟩
      · calc ((y + 1) :: xs).enum.foldlM stretchF part
            = (List.enumFrom 1 xs).foldlM stretchF (0 :: part) := by
              simp [List.enum, List.enumFrom, List.foldlM_cons, stretchF,
                insertAt]
          _ = ((List.enumFrom 0 xs).foldlM stretchF part).map
                (fun l => 0 :: l) := stretchFold_shift xs 0 0 part
          _ = some (0 :: part2) := by
              rw [show (List.enumFrom 0 xs) = xs.enum from rfl, hfold]
              rfl
      · simp [addPointwise, hadd, mergeZeros]

theorem addPointwise_replicate (part : List Nat) :
    addPointwise (List.replicate part.length 0) part = some part := by
  induction part with
  | nil => simp [addPointwise]
  | cons p ps ih => simp [List.replicate_succ, addPointwise, ih]

theorem setNthZero_replicate (n s v : Nat) :
    setNthZero (List.replicate n 0) s v = (List.replicate n 0).set s v := by
  induction n generalizing s with
  | zero => simp [setNthZero]
  | succ k ih =>
    cases s <;> simp [List.replicate_succ, setNthZero, ih]

end Vigenere

namespace Vigenere

/-! ## `genLoop` computes `decodeVec` -/

theorem foldlM_div (g : Nat → Nat) (is : List Nat) (m : Nat)
    (h : ∀ i ∈ is, g i ≠ 0) :
    is.foldlM (fun n i => if g i = 0 then none else some (n / g i)) m =
      some (m / (is.map g).prod) := by
  induction is generalizing m with
  | nil => simp
  | cons i is ih =>
    have hi : g i ≠ 0 := h i (by simp)
    rw [List.foldlM_cons, if_neg hi]
    show (is.foldlM (fun n i => if g i = 0 then none else some (n / g i))
      (m / g i)) = _
    rw [ih (m / g i) (fun j hj => h j (by simp [hj]))]
    simp [Nat.div_div_eq_div_mul]

theorem get_part_n_eq (t : AttemptOrder) (j : Nat)
    (hA : 2 ≤ t.num_letters) (hc : t.num_changes ≤ t.key_length) :
    t.get_part_n j = some (t.combination_num /
      decodeDivisor t.key_length t.num_letters j t.num_changes) := by
  unfold AttemptOrder.get_part_n decodeDivisor
  exact foldlM_div (fun i => (t.key_length - i) * (t.num_letters - 1)) _ _
    (by
      intro i hi
      rw [List.mem_range'] at hi
      have : i < t.num_changes := by omega
      have h1 : 0 < t.key_length - i := by omega
      have h2 : 0 < t.num_letters - 1 := by omega
      positivity)

theorem genStep_eq (t : AttemptOrder) (j : Nat)
    (h1 : 1 ≤ j) (hj : j ≤ t.num_changes) (hc : t.num_changes ≤ t.key_length)
    (hA : 2 ≤ t.num_letters)
    (hlen : t.combination.length = t.key_length)
    (hzc : zeroCount t.combination = t.key_length - j + 1) :
    genBody t (t.num_changes - j) =
      some { t with combination := (decodeStep t.key_length t.num_letters
        t.num_changes t.combination_num t.combination j) } := by
  have hjL : j ≤ t.key_length := le_trans hj hc
  have hchange : t.num_changes - (t.num_changes - j) = j := by omega
  unfold genBody
  rw [hchange, get_part_n_eq t j hA hc, Option.some_bind]
  set n := t.combination_num /
    decodeDivisor t.key_length t.num_letters j t.num_changes with hn
  have hcols : ¬ (t.num_letters - 1 = 0) := by omega
  have hgcp : t.get_combination_part j n =
      some ((List.replicate (t.key_length - j + 1) 0).set
        (n % (t.key_length - j + 1))
        ((n / (t.key_length - j + 1)) % (t.num_letters - 1) + 1)) := by
    unfold AttemptOrder.get_combination_part
    simp [hcols]
  rw [hgcp, Option.some_bind]
  set rows := t.key_length - j + 1 with hrows
  set v := (n / rows) % (t.num_letters - 1) + 1 with hv
  set part := (List.replicate rows 0).set (n % rows) v with hpart
  have hplen : part.length = rows := by simp [hpart]
  have hsr : n % rows < rows := Nat.mod_lt _ (by omega)
  have hds : decodeStep t.key_length t.num_letters t.num_changes
      t.combination_num t.combination j =
      setNthZero t.combination (n % rows) v := rfl
  by_cases hb : j = 1
  · subst hb
    have hrL : rows = t.key_length := by omega
    have hnotlt : ¬ (part.length < t.key_length) := by omega
    rw [if_neg hnotlt, Option.some_bind]
    have hcombz : t.combination = List.replicate t.key_length 0 := by
      have := zeroCount_full t.combination (by omega)
      rwa [hlen] at this
    have hpeq : part = setNthZero t.combination (n % rows) v := by
      rw [hcombz, setNthZero_replicate, hpart, hrL]
    rw [hds, ← hpeq]
    unfold AttemptOrder.add_combination_part
    rw [hcombz]
    rw [show (List.replicate t.key_length 0) = List.replicate part.length 0
      from by rw [hplen, hrL]]
    rw [addPointwise_replicate]
    rfl
  · have hj2 : 2 ≤ j := by omega
    have hlt : part.length < t.key_length := by
      rw [hplen]
      omega
    rw [if_pos hlt]
    obtain ⟨part2, hfold, hadd⟩ := stretch_add t.combination part (by omega)
    rw [show t.stretch_vec part = some part2 from hfold, Option.some_bind]
    unfold AttemptOrder.add_combination_part
    rw [hadd]
    have hmz : mergeZeros t.combination part =
        setNthZero t.combination (n % rows) v := by
      rw [show part = (List.replicate (zeroCount t.combination) 0).set
          (n % rows) v from by rw [hzc], mergeZeros_set]
      omega
    rw [hds, hmz]
    rfl

theorem decodePartial_props (L A c m : Nat) (hA : 2 ≤ A) (hcL : c ≤ L) :
    ∀ k, k ≤ c →
      ((List.range' 1 k).foldl (decodeStep L A c m)
          (List.replicate L 0)).length = L ∧
      zeroCount ((List.range' 1 k).foldl (decodeStep L A c m)
          (List.replicate L 0)) = L - k ∧
      ∀ x ∈ (List.range' 1 k).foldl (decodeStep L A c m)
          (List.replicate L 0), x ≤ A - 1 := by
  intro k
  induction k with
  | zero =>
    intro _
    refine ⟨by simp, by simp [zeroCount_replicate_zero], ?_⟩
    intro x hx
    rw [List.eq_of_mem_replicate hx]
    omega
  | succ k ih =>
    intro hk
    obtain ⟨hl, hz, hmem⟩ := ih (by omega)
    set P := (List.range' 1 k).foldl (decodeStep L A c m)
      (List.replicate L 0) with hP
    have hrange : List.range' 1 (k + 1) = List.range' 1 k ++ [1 + k] := by
      rw [List.range'_concat]
      simp
    rw [hrange, List.foldl_append]
    simp only [List.foldl_cons, List.foldl_nil]
    rw [show (1 + k) = k + 1 from by omega]
    set rows := L - (k + 1) + 1 with hrows
    set n := m / decodeDivisor L A (k + 1) c with hn
    have hrowseq : rows = L - k := by omega
    have hsr : n % rows < rows := Nat.mod_lt _ (by omega)
    have hzrows : zeroCount P = rows := by omega
    have hstep : decodeStep L A c m P (k + 1) =
        setNthZero P (n % rows) ((n / rows) % (A - 1) + 1) := rfl
    rw [hstep]
    refine ⟨?_, ?_, ?_⟩
    · rw [length_setNthZero]
      exact hl
    · have := zeroCount_setNthZero P (n % rows) ((n / rows) % (A - 1))
        (by omega)
      omega
    · intro x hx
      rcases mem_setNthZero P (n % rows) ((n / rows) % (A - 1) + 1) x
        (by omega) hx with h | h
      · exact hmem x h
      · have : (n / rows) % (A - 1) < A - 1 := Nat.mod_lt _ (by omega)
        omega

theorem decodeVec_length (L A c m : Nat) (hA : 2 ≤ A) (hcL : c ≤ L) :
    (decodeVec L A c m).length = L :=
  (decodePartial_props L A c m hA hcL c le_rfl).1

theorem decodeVec_zeroCount (L A c m : Nat) (hA : 2 ≤ A) (hcL : c ≤ L) :
    zeroCount (decodeVec L A c m) = L - c :=
  (decodePartial_props L A c m hA hcL c le_rfl).2.1

theorem decodeVec_mem (L A c m : Nat) (hA : 2 ≤ A) (hcL : c ≤ L) :
    ∀ x ∈ decodeVec L A c m, x ≤ A - 1 :=
  (decodePartial_props L A c m hA hcL c le_rfl).2.2

theorem decodeVec_weight (L A c m : Nat) (hA : 2 ≤ A) (hcL : c ≤ L) :
    weight (decodeVec L A c m) = c := by
  have h1 := decodeVec_length L A c m hA hcL
  have h2 := decodeVec_zeroCount L A c m hA hcL
  have h3 := weight_add_zeroCount (decodeVec L A c m)
  omega

theorem genLoop_aux (s : AttemptOrder) (hA : 2 ≤ s.num_letters)
    (hc : s.num_changes ≤ s.key_length) :
    ∀ k, k ≤ s.num_changes →
    ((List.range' (s.num_changes - k) k).reverse).foldlM genBody
        { s with combination := List.replicate s.key_length 0 } =
      some { s with combination := ((List.range' 1 k).foldl
        (decodeStep s.key_length s.num_letters s.num_changes
          s.combination_num) (List.replicate s.key_length 0)) } := by
  intro k
  induction k with
  | zero => simp
  | succ k ih =>
    intro hk
    have hsplit : List.range' (s.num_changes - (k + 1)) (k + 1) =
        (s.num_changes - (k + 1)) :: List.range' (s.num_changes - k) k := by
      have harith : s.num_changes - (k + 1) + 1 = s.num_changes - k := by
        omega
      rw [List.range'_succ, harith]
    rw [hsplit]
    simp only [List.reverse_cons]
    rw [List.foldlM_append, ih (by omega)]
    set P := (List.range' 1 k).foldl
      (decodeStep s.key_length s.num_letters s.num_changes s.combination_num)
      (List.replicate s.key_length 0) with hP
    obtain ⟨hl, hz, _⟩ := decodePartial_props s.key_length s.num_letters
      s.num_changes s.combination_num hA hc k (by omega)
    rw [← hP] at hl hz
    have hkL : k + 1 ≤ s.key_length := le_trans hk hc
    have hz2 : zeroCount P = s.key_length - (k + 1) + 1 := by
      rw [hz]
      omega
    have hstep : genBody { s with combination := P }
        (s.num_changes - (k + 1)) =
        some { s with combination := (decodeStep s.key_length s.num_letters
          s.num_changes s.combination_num P (k + 1)) } := by
      exact genStep_eq { s with combination := P } (k + 1)
        (by omega) hk hc hA hl hz2
    have hfold : (List.range' 1 (k + 1)).foldl
        (decodeStep s.key_length s.num_letters s.num_changes
          s.combination_num) (List.replicate s.key_length 0) =
        decodeStep s.key_length s.num_letters s.num_changes s.combination_num
          P (k + 1) := by
      rw [show List.range' 1 (k + 1) = List.range' 1 k ++ [1 + k] from by
        rw [List.range'_concat]
        simp]
      rw [List.foldl_append]
      simp only [List.foldl_cons, List.foldl_nil]
      rw [show (1 + k) = k + 1 from by omega, ← hP]
    show (genBody { s with combination := P } (s.num_changes - (k + 1)) >>=
      fun b => List.foldlM genBody b []) = _
    rw [hstep, hfold]
    rfl

theorem genLoop_eq (s : AttemptOrder) (hA : 2 ≤ s.num_letters)
    (hc : s.num_changes ≤ s.key_length) :
    s.genLoop = some { s with combination := (decodeVec s.key_length
      s.num_letters s.num_changes s.combination_num) } := by
  unfold AttemptOrder.genLoop
  have h := genLoop_aux s hA hc s.num_changes le_rfl
  rw [Nat.sub_self] at h
  rw [show List.range s.num_changes = List.range' 0 s.num_changes from
    List.range_eq_range' s.num_changes]
  exact h

end Vigenere

namespace Vigenere

/-! ## Peeling the last slot of `decodeVec` -/

theorem foldl_congr_mem {α β : Type} (f g : α → β → α) (l : List β) (a : α)
    (h : ∀ acc, ∀ x ∈ l, f acc x = g acc x) : l.foldl f a = l.foldl g a := by
  induction l generalizing a with
  | nil => rfl
  | cons x xs ih =>
    rw [List.foldl_cons, List.foldl_cons, h a x (by simp)]
    exact ih _ (fun acc y hy => h acc y (by simp [hy]))

theorem decodeDivisor_self (L A c : Nat) : decodeDivisor L A c c = 1 := by
  simp [decodeDivisor]

theorem decodeDivisor_succ (L A j k : Nat) (hj : j ≤ k) :
    decodeDivisor L A j (k + 1) =
      decodeDivisor L A j k * ((L - k) * (A - 1)) := by
  unfold decodeDivisor
  rw [show k + 1 - j = (k - j) + 1 from by omega, List.range'_concat,
    show j + 1 * (k - j) = k from by omega, List.map_append,
    List.prod_append]
  simp

theorem decodeVec_zero (L A m : Nat) : decodeVec L A 0 m = List.replicate L 0 :=
  rfl

theorem decodeVec_succ (L A k m : Nat) (hkL : k + 1 ≤ L) :
    decodeVec L A (k + 1) m =
      setNthZero (decodeVec L A k (m / ((L - k) * (A - 1))))
        (m % (L - k)) ((m / (L - k)) % (A - 1) + 1) := by
  unfold decodeVec
  rw [show List.range' 1 (k + 1) = List.range' 1 k ++ [1 + k] from by
    rw [List.range'_concat]
    simp]
  rw [List.foldl_append]
  simp only [List.foldl_cons, List.foldl_nil]
  rw [show (1 + k) = k + 1 from by omega]
  have hcong : (List.range' 1 k).foldl (decodeStep L A (k + 1) m)
      (List.replicate L 0) =
      (List.range' 1 k).foldl (decodeStep L A k (m / ((L - k) * (A - 1))))
      (List.replicate L 0) := by
    apply foldl_congr_mem
    intro acc j hjmem
    rw [List.mem_range'] at hjmem
    have hj : j ≤ k := by omega
    unfold decodeStep
    rw [decodeDivisor_succ L A j k hj,
      show m / (decodeDivisor L A j k * ((L - k) * (A - 1))) =
        m / ((L - k) * (A - 1)) / decodeDivisor L A j k from by
      rw [Nat.div_div_eq_div_mul, Nat.mul_comm]]
  rw [hcong]
  unfold decodeStep
  rw [decodeDivisor_self, Nat.div_one,
    show L - (k + 1) + 1 = L - k from by omega]

/-! ## Digit extraction -/

theorem digit_div (P r V d : Nat) (hrV : 0 < r * V) (hd : d < r * V) :
    (P * (r * V) + d) / (r * V) = P := by
  rw [Nat.mul_comm P (r * V), Nat.add_comm, Nat.add_mul_div_left d P hrV,
    Nat.div_eq_of_lt hd, Nat.zero_add]

theorem digit_mod_r (P r V d : Nat) : (P * (r * V) + d) % r = d % r := by
  have h : P * (r * V) = (P * V) * r := by ring
  rw [h, Nat.add_comm, Nat.add_mul_mod_self_right]

theorem digit_div_r (P r V d : Nat) (hr : 0 < r) :
    (P * (r * V) + d) / r = P * V + d / r := by
  have h : P * (r * V) = r * (P * V) := by ring
  rw [h, Nat.add_comm, Nat.add_mul_div_left d (P * V) hr, Nat.add_comm]

theorem digit_voff (P r V d : Nat) (hr : 0 < r) (hd : d < r * V) :
    ((P * (r * V) + d) / r) % V = d / r := by
  rw [digit_div_r P r V d hr, Nat.add_comm, Nat.add_mul_mod_self_right]
  exact Nat.mod_eq_of_lt (by rw [Nat.div_lt_iff_lt_mul hr, Nat.mul_comm]
                             exact hd)

end Vigenere

namespace Vigenere

/-! ## Characterisation of `is_last` -/

theorem zeroCount_replicate_succ (k x : Nat) :
    zeroCount (List.replicate k (x + 1)) = 0 := by
  induction k with
  | zero => rfl
  | succ n ih => rw [List.replicate_succ]; simpa [zeroCount] using ih

theorem isLastScan_replicate_max (M b : Nat) (hM : 0 < M) (seen : Bool) :
    isLastScan M (List.replicate b M) seen = true := by
  induction b generalizing seen with
  | zero => rfl
  | succ n ih =>
    rw [List.replicate_succ]
    show isLastScan M (M :: List.replicate n M) seen = true
    unfold isLastScan
    simp only [hM, if_true, if_neg (by omega : ¬ M ≠ M)]
    simpa using ih true

theorem isLastScan_zeros (M a : Nat) (l : List Nat) :
    isLastScan M (List.replicate a 0 ++ l) false = isLastScan M l false := by
  induction a with
  | zero => simp
  | succ n ih =>
    rw [List.replicate_succ]
    show isLastScan M (0 :: (List.replicate n 0 ++ l)) false = _
    rw [show ∀ l' : List Nat, isLastScan M (0 :: l') false =
      isLastScan M l' false from fun _ => rfl]
    exact ih

theorem isLastScan_true_elim (M : Nat) (v : List Nat) :
    ∀ seen, isLastScan M v seen = true →
      ∃ a b, v = List.replicate a 0 ++ List.replicate b M ∧
        (seen = true → a = 0) := by
  induction v with
  | nil => exact fun seen _ => ⟨0, 0, rfl, fun _ => rfl⟩
  | cons p ps ih =>
    intro seen h
    by_cases hp : p > 0
    · unfold isLastScan at h
      simp only [hp, if_true] at h
      by_cases hpm : p = M
      · rw [if_neg (by simpa using hpm)] at h
        obtain ⟨a, b, hv, ha⟩ := ih true h
        have ha0 : a = 0 := ha rfl
        subst ha0
        simp only [List.replicate, List.nil_append] at hv
        refine ⟨0, b + 1, ?_, fun _ => rfl⟩
        rw [List.replicate_succ]
        simp [hv, hpm]
      · rw [if_pos (by simpa using hpm)] at h
        cases h
    · have hp0 : p = 0 := by omega
      subst hp0
      unfold isLastScan at h
      simp only [gt_iff_lt, Nat.lt_irrefl, if_false] at h
      cases hseen : seen with
      | true =>
        rw [hseen] at h
        simp at h
      | false =>
        rw [hseen] at h
        simp only [if_neg (by simp : ¬ (false = true))] at h
        obtain ⟨a, b, hv, _⟩ := ih false h
        refine ⟨a + 1, b, ?_, fun hcontra => by cases hcontra⟩
        rw [List.replicate_succ]
        simp [hv]

/-- `is_last` fires exactly on vectors of the shape
`0 ^ a ++ (A-1) ^ b`. -/
theorem is_last_iff (s : AttemptOrder) (hA : 2 ≤ s.num_letters)
    (hc : s.num_changes ≠ 0) :
    s.is_last = true ↔
      ∃ a b, s.combination =
        List.replicate a 0 ++ List.replicate b (s.num_letters - 1) := by
  unfold AttemptOrder.is_last
  rw [if_neg hc]
  constructor
  · intro h
    obtain ⟨a, b, hv, _⟩ := isLastScan_true_elim _ _ false h
    exact ⟨a, b, hv⟩
  · rintro ⟨a, b, hv⟩
    rw [hv, isLastScan_zeros]
    exact isLastScan_replicate_max _ _ (by omega) false

end Vigenere

namespace Vigenere

/-! ## The terminal vector of a level and its first index -/

theorem decode_mstarAux (L A : Nat) (hA : 2 ≤ A) (t : Nat) :
    ∀ k, k + t ≤ L →
      decodeVec L A k (mstarAux L A t k) =
        List.replicate t 0 ++ List.replicate k (A - 1) ++
          List.replicate (L - t - k) 0 := by
  intro k
  induction k with
  | zero =>
    intro hk
    rw [decodeVec_zero]
    rw [show (List.replicate 0 (A - 1) : List Nat) = [] from rfl,
      List.append_nil, ← List.replicate_add,
      show t + (L - t - 0) = L from by omega]
  | succ k ih =>
    intro hk
    have hkL : k + 1 ≤ L := by omega
    rw [show mstarAux L A t (k + 1) =
      mstarAux L A t k * ((L - k) * (A - 1)) + ((A - 2) * (L - k) + t) from
      rfl]
    rw [decodeVec_succ L A k _ hkL]
    set r := L - k with hr
    set V := A - 1 with hV
    set P := mstarAux L A t k with hP
    set d := (A - 2) * r + t with hd
    have hr0 : 0 < r := by omega
    have hV0 : 0 < V := by omega
    have htr : t < r := by omega
    have hdlt : d < r * V := by
      have e1 : (A - 2) * r + r = (A - 2 + 1) * r := by ring
      have e : (A - 2 + 1) * r = V * r := by
        rw [show A - 2 + 1 = V from by omega]
      have e2 : V * r = r * V := Nat.mul_comm V r
      omega
    rw [digit_div P r V d (by positivity) hdlt, digit_mod_r P r V d,
      digit_voff P r V d hr0 hdlt]
    have hdmod : d % r = t := by
      rw [hd, Nat.add_comm, Nat.add_mul_mod_self_right]
      exact Nat.mod_eq_of_lt htr
    have hddiv : d / r = A - 2 := by
      rw [hd, Nat.add_comm, Nat.add_mul_div_right _ _ hr0,
        Nat.div_eq_of_lt htr, Nat.zero_add]
    rw [hdmod, hddiv, show A - 2 + 1 = A - 1 from by omega]
    rw [ih (by omega)]
    have hsplit3 : List.replicate (L - t - k) 0 =
        0 :: List.replicate (L - t - (k + 1)) 0 := by
      rw [show L - t - k = (L - t - (k + 1)) + 1 from by omega,
        List.replicate_succ]
    rw [hsplit3]
    have hys : zeroCount (List.replicate t 0 ++ List.replicate k (A - 1)) =
        t := by
      rw [zeroCount_append, zeroCount_replicate_zero,
        show A - 1 = (A - 2) + 1 from by omega, zeroCount_replicate_succ]
      omega
    have happ := setNthZero_append
      (List.replicate t 0 ++ List.replicate k (A - 1))
      (List.replicate (L - t - (k + 1)) 0) (A - 1)
    rw [hys] at happ
    rw [happ]
    simp [List.replicate_succ', List.append_assoc]

theorem prefix_zeros_le (x : Nat) (hx : x ≠ 0) :
    ∀ t (ys zs u : List Nat),
      ys ++ x :: zs = List.replicate t 0 ++ u → t ≤ ys.length := by
  intro t
  induction t with
  | zero => intro _ _ _ _; omega
  | succ n ih =>
    intro ys zs u h
    cases ys with
    | nil =>
      rw [List.replicate_succ] at h
      simp at h
      exact absurd h.1 hx
    | cons y ys' =>
      rw [List.replicate_succ] at h
      simp only [List.cons_append, List.cons.injEq] at h
      have := ih ys' zs u h.2
      simp only [List.length_cons]
      omega

theorem decode_min (L A : Nat) (hA : 2 ≤ A) (t : Nat) :
    ∀ k, k ≤ L → ∀ m,
      (∀ x ∈ decodeVec L A k m, x = 0 ∨ x = A - 1) →
      (∃ u, decodeVec L A k m = List.replicate t 0 ++ u) →
      mstarAux L A t k ≤ m := by
  intro k
  induction k with
  | zero => intro _ m _ _; exact Nat.zero_le m
  | succ k ih =>
    intro hkL m hvals hpre
    have hk : k ≤ L := by omega
    have hrec := decodeVec_succ L A k m hkL
    set r := L - k with hr
    set V := A - 1 with hV
    have hr0 : 0 < r := by omega
    have hV0 : 0 < V := by omega
    set m2 := m / (r * V) with hm2
    set w' := decodeVec L A k m2 with hw'
    have hzc : zeroCount w' = L - k := decodeVec_zeroCount L A k m2 hA hk
    have hmr : m % r < zeroCount w' := by
      have := Nat.mod_lt m hr0
      omega
    obtain ⟨ys, zs, hw'eq, hysz, hset⟩ :=
      setNthZero_decomp w' (m % r) ((m / r) % V + 1) hmr
    rw [hrec, hset] at hvals hpre
    have hval : (m / r) % V + 1 = A - 1 := by
      have hmem : (m / r) % V + 1 ∈ ys ++ ((m / r) % V + 1) :: zs := by simp
      rcases hvals _ hmem with h | h
      · omega
      · exact h
    have hvoff : (m / r) % V = A - 2 := by omega
    obtain ⟨u, hu⟩ := hpre
    have htys : t ≤ ys.length :=
      prefix_zeros_le ((m / r) % V + 1) (by omega) t ys zs u hu
    have hys_take : ys.take t = List.replicate t 0 := by
      have h1 : (ys ++ ((m / r) % V + 1) :: zs).take t = ys.take t :=
        List.take_append_of_le_length htys
      rw [hu] at h1
      have h2 : (List.replicate t 0 ++ u).take t = List.replicate t 0 := by
        rw [List.take_append_of_le_length (by simp), List.take_replicate]
        simp
      rw [h2] at h1
      exact h1.symm
    have hst : t ≤ zeroCount ys := by
      have h3 : zeroCount ys = t + zeroCount (ys.drop t) := by
        conv_lhs => rw [show ys = ys.take t ++ ys.drop t from
          (List.take_append_drop t ys).symm]
        rw [zeroCount_append, hys_take, zeroCount_replicate_zero]
      omega
    have hvals' : ∀ x ∈ w', x = 0 ∨ x = A - 1 := by
      intro x hx
      rw [hw'eq] at hx
      rcases List.mem_append.1 hx with h | h
      · exact hvals x (List.mem_append_left _ h)
      · rcases List.mem_cons.1 h with h0 | h0
        · exact Or.inl h0
        · exact hvals x (List.mem_append_right _ (List.mem_cons_of_mem _ h0))
    have hpre' : ∃ u', w' = List.replicate t 0 ++ u' := by
      refine ⟨w'.drop t, ?_⟩
      conv_lhs => rw [show w' = w'.take t ++ w'.drop t from
        (List.take_append_drop t w').symm]
      congr 1
      rw [hw'eq, List.take_append_of_le_length htys]
      exact hys_take
    have hIH : mstarAux L A t k ≤ m2 := ih hk m2 hvals' hpre'
    have e1 : m / r * r + m % r = m := Nat.div_add_mod' m r
    have e2 : m / r / V * V + (m / r) % V = m / r := Nat.div_add_mod' _ V
    have e3 : m / r / V = m2 := by rw [hm2, Nat.div_div_eq_div_mul]
    have hm : (m2 * V + (A - 2)) * r + m % r = m := by
      rw [← hvoff, ← e3]
      rw [e2, e1]
    have hstv : t ≤ m % r := by omega
    calc mstarAux L A t (k + 1)
        = mstarAux L A t k * (r * V) + ((A - 2) * r + t) := rfl
      _ ≤ m2 * (r * V) + ((A - 2) * r + t) := by
          have := Nat.mul_le_mul_right (r * V) hIH
          omega
      _ ≤ m2 * (r * V) + ((A - 2) * r + m % r) := by omega
      _ = (m2 * V + (A - 2)) * r + m % r := by ring
      _ = m := hm

end Vigenere

namespace Vigenere

/-! ## Surjectivity: every vector is decoded from its canonical index -/

theorem encR_zeros (L A : Nat) (l w : List Nat) (h : ∀ x ∈ l, x = 0) :
    encR L A (l ++ w) = encR L A w := by
  induction l with
  | nil => rfl
  | cons x xs ih =>
    have hx : x = 0 := h x (by simp)
    subst hx
    show encR L A (0 :: (xs ++ w)) = _
    rw [show encR L A (0 :: (xs ++ w)) = encR L A (xs ++ w) from rfl]
    exact ih (fun y hy => h y (by simp [hy]))

theorem decode_encR (L A : Nat) (hA : 2 ≤ A) :
    ∀ c v, weight v = c → v.length = L → (∀ x ∈ v, x < A) →
      decodeVec L A c (encR L A v.reverse) = v := by
  intro c
  induction c with
  | zero =>
    intro v hw hl _
    have hv : v = List.replicate L 0 := by
      rw [← hl]
      exact weight_eq_zero v hw
    rw [hv, List.reverse_replicate]
    rw [show encR L A (List.replicate L 0) = 0 from by
      have h0 := encR_zeros L A (List.replicate L 0) []
        (fun x hx => List.eq_of_mem_replicate hx)
      simpa using h0]
    rfl
  | succ k ih =>
    intro v hw hl hbound
    obtain ⟨ys, x, a, hdecomp⟩ := lastNonzero_decomp v (by omega)
    have hwys : weight ys = k := by
      rw [hdecomp, weight_append] at hw
      simp only [weight, weight_replicate_zero] at hw
      omega
    have hlys : ys.length + 1 + a = L := by
      rw [hdecomp] at hl
      simp at hl
      omega
    have hk1L : k + 1 ≤ L := by
      have := weight_le_length ys
      omega
    have hreq : L - (k + 1) + 1 = L - k := by omega
    have hrev : v.reverse = List.replicate a 0 ++ ((x + 1) :: ys.reverse) := by
      rw [hdecomp]
      simp [List.reverse_append]
    have hencv : encR L A v.reverse = encR L A ((x + 1) :: ys.reverse) := by
      rw [hrev]
      exact encR_zeros L A _ _ (fun y hy => List.eq_of_mem_replicate hy)
    have hwrev : weight ys.reverse = k := by
      rw [weight_reverse]
      exact hwys
    have hencv2 : encR L A ((x + 1) :: ys.reverse) =
        encR L A ys.reverse * ((L - k) * (A - 1)) +
          (x * (L - k) + zeroCount ys.reverse) := by
      rw [show encR L A ((x + 1) :: ys.reverse) =
        encR L A ys.reverse * ((L - (weight ys.reverse + 1) + 1) * (A - 1)) +
          (x * (L - (weight ys.reverse + 1) + 1) + zeroCount ys.reverse)
        from rfl]
      rw [hwrev, hreq]
    have hxA : x + 1 < A := hbound (x + 1) (by rw [hdecomp]; simp)
    have hzys : zeroCount ys = ys.length - k := by
      have := weight_add_zeroCount ys
      omega
    have hzlt : zeroCount ys.reverse < L - k := by
      rw [zeroCount_reverse, hzys]
      omega
    have hdlt : x * (L - k) + zeroCount ys.reverse < (L - k) * (A - 1) := by
      have h1 : x ≤ A - 2 := by omega
      have h3 : x * (L - k) ≤ (A - 2) * (L - k) := Nat.mul_le_mul_right _ h1
      have h4 : (A - 2) * (L - k) + (L - k) = (A - 2 + 1) * (L - k) := by ring
      have h5 : (A - 2 + 1) * (L - k) = (A - 1) * (L - k) := by
        rw [show A - 2 + 1 = A - 1 from by omega]
      have h6 : (A - 1) * (L - k) = (L - k) * (A - 1) := Nat.mul_comm _ _
      omega
    have hrV : 0 < (L - k) * (A - 1) := by
      have h1 : 0 < L - k := by omega
      have h2 : 0 < A - 1 := by omega
      positivity
    set v' := ys ++ 0 :: List.replicate a 0 with hv'
    have hwv' : weight v' = k := by
      rw [hv', weight_append]
      simp only [weight, weight_replicate_zero]
      omega
    have hlv' : v'.length = L := by
      rw [hv']
      simp
      omega
    have hbv' : ∀ y ∈ v', y < A := by
      intro y hy
      rw [hv'] at hy
      rcases List.mem_append.1 hy with h | h
      · exact hbound y (by rw [hdecomp]; exact List.mem_append_left _ h)
      · rcases List.mem_cons.1 h with h0 | h0
        · omega
        · rw [List.eq_of_mem_replicate h0]
          omega
    have hencv' : encR L A v'.reverse = encR L A ys.reverse := by
      have hrev2 : v'.reverse = (0 :: List.replicate a 0).reverse ++
          ys.reverse := by
        rw [hv', List.reverse_append]
      rw [hrev2]
      refine encR_zeros L A _ _ ?_
      intro y hy
      rcases List.mem_cons.1 (List.mem_reverse.1 hy) with h | h
      · exact h
      · exact List.eq_of_mem_replicate h
    have hIH : decodeVec L A k (encR L A ys.reverse) = v' := by
      have h := ih v' hwv' hlv' hbv'
      rwa [hencv'] at h
    rw [hencv, hencv2, decodeVec_succ L A k _ hk1L]
    rw [digit_div _ _ _ _ hrV hdlt, digit_mod_r, digit_voff _ _ _ _
      (by omega) hdlt]
    have hdmod : (x * (L - k) + zeroCount ys.reverse) % (L - k) =
        zeroCount ys := by
      rw [Nat.add_comm, Nat.add_mul_mod_self_right, zeroCount_reverse]
      exact Nat.mod_eq_of_lt (by rw [← zeroCount_reverse]; exact hzlt)
    have hddiv : (x * (L - k) + zeroCount ys.reverse) / (L - k) = x := by
      rw [Nat.add_comm, Nat.add_mul_div_right _ _ (by omega : 0 < L - k),
        Nat.div_eq_of_lt hzlt, Nat.zero_add]
    rw [hdmod, hddiv, hIH, hv', setNthZero_append]
    exact hdecomp.symm

end Vigenere

namespace Vigenere

/-! ## The canonical index is bounded by `mstar` -/

theorem encR_le_mstarAux (L A t : Nat) (hA : 2 ≤ A) :
    ∀ w : List Nat, w.length ≤ L → (∀ x ∈ w, x < A) →
      (∀ w1 x rest, w = w1 ++ (x + 1) :: rest → zeroCount rest ≤ t) →
      encR L A w ≤ mstarAux L A t (weight w) := by
  intro w
  induction w with
  | nil => intro _ _ _; exact Nat.zero_le _
  | cons y w2 ih =>
    intro hlen hb hdec
    cases y with
    | zero =>
      rw [show encR L A (0 :: w2) = encR L A w2 from rfl,
        show weight (0 :: w2) = weight w2 from rfl]
      refine ih ?_ (fun z hz => hb z (by simp [hz])) ?_
      · simp only [List.length_cons] at hlen
        omega
      · intro w1 z rest hsplit
        exact hdec (0 :: w1) z rest (by rw [hsplit]; rfl)
    | succ x =>
      set k := weight w2 with hk
      have hwk : weight ((x + 1) :: w2) = k + 1 := by
        simp [weight, hk]
      have hkL : k + 1 ≤ L := by
        have h1 : weight w2 ≤ w2.length := weight_le_length w2
        simp only [List.length_cons] at hlen
        omega
      have hreq : L - (k + 1) + 1 = L - k := by omega
      have henc : encR L A ((x + 1) :: w2) =
          encR L A w2 * ((L - k) * (A - 1)) +
            (x * (L - k) + zeroCount w2) := by
        rw [show encR L A ((x + 1) :: w2) =
          encR L A w2 * ((L - (weight w2 + 1) + 1) * (A - 1)) +
            (x * (L - (weight w2 + 1) + 1) + zeroCount w2) from rfl]
        rw [← hk, hreq]
      rw [henc, hwk]
      have hIH : encR L A w2 ≤ mstarAux L A t k := by
        refine ih ?_ (fun z hz => hb z (by simp [hz])) ?_
        · simp only [List.length_cons] at hlen
          omega
        · intro w1 z rest hsplit
          exact hdec ((x + 1) :: w1) z rest (by rw [hsplit]; rfl)
      have hx : x ≤ A - 2 := by
        have := hb (x + 1) (by simp)
        omega
      have hzc : zeroCount w2 ≤ t := hdec [] x w2 rfl
      rw [show mstarAux L A t (k + 1) =
        mstarAux L A t k * ((L - k) * (A - 1)) + ((A - 2) * (L - k) + t)
        from rfl]
      have h1 : encR L A w2 * ((L - k) * (A - 1)) ≤
          mstarAux L A t k * ((L - k) * (A - 1)) :=
        Nat.mul_le_mul_right _ hIH
      have h2 : x * (L - k) ≤ (A - 2) * (L - k) := Nat.mul_le_mul_right _ hx
      omega

theorem encR_le_mstar (L A : Nat) (hA : 2 ≤ A) (v : List Nat)
    (hl : v.length = L) (hb : ∀ x ∈ v, x < A) :
    encR L A v.reverse ≤ mstar L A (weight v) := by
  unfold mstar
  rw [show weight v = weight v.reverse from (weight_reverse v).symm]
  refine encR_le_mstarAux L A (L - weight v.reverse) hA v.reverse
    (by simp [hl]) (fun z hz => hb z (List.mem_reverse.1 hz)) ?_
  intro w1 x rest hsplit
  have h1 : zeroCount rest ≤ zeroCount v.reverse := by
    rw [hsplit, zeroCount_append,
      show zeroCount ((x + 1) :: rest) = zeroCount rest from rfl]
    omega
  have h2 : zeroCount v.reverse = L - weight v.reverse := by
    rw [zeroCount_reverse, weight_reverse]
    have := weight_add_zeroCount v
    omega
  omega

end Vigenere

namespace Vigenere

/-! ## The behaviour of `next` on mid-run states -/

theorem decode_mstar (L A c : Nat) (hA : 2 ≤ A) (hc : c ≤ L) :
    decodeVec L A c (mstar L A c) =
      List.replicate (L - c) 0 ++ List.replicate c (A - 1) := by
  have h := decode_mstarAux L A hA (L - c) c (by omega)
  rw [show L - (L - c) - c = 0 from by omega] at h
  unfold mstar
  simpa using h

theorem is_last_stateAt_true (L A c : Nat) (hA : 2 ≤ A) (hc : c ≤ L) :
    (stateAt L A c (mstar L A c)).is_last = true := by
  by_cases h0 : c = 0
  · subst h0
    rfl
  · refine (is_last_iff _ hA h0).mpr ⟨L - c, c, ?_⟩
    show decodeVec L A c (mstar L A c) =
      List.replicate (L - c) 0 ++ List.replicate c (A - 1)
    exact decode_mstar L A c hA hc

theorem is_last_stateAt_false (L A c m : Nat) (hA : 2 ≤ A) (hc : c ≤ L)
    (hm : m < mstar L A c) : (stateAt L A c m).is_last = false := by
  have hc0 : c ≠ 0 := by
    intro h
    subst h
    simp [mstar, mstarAux] at hm
  rcases Bool.eq_false_or_eq_true ((stateAt L A c m).is_last) with h | h
  case inr => exact h
  · exfalso
    obtain ⟨a, b, hcomb⟩ := (is_last_iff _ hA hc0).mp h
    have hcomb' : decodeVec L A c m =
        List.replicate a 0 ++ List.replicate b (A - 1) := hcomb
    have hwc : weight (decodeVec L A c m) = c := decodeVec_weight L A c m hA hc
    have hlenc : (decodeVec L A c m).length = L :=
      decodeVec_length L A c m hA hc
    have hb : b = c := by
      rw [hcomb', weight_append, weight_replicate_zero,
        show A - 1 = (A - 2) + 1 from by omega, weight_replicate] at hwc
      omega
    have ha : a = L - c := by
      rw [hcomb'] at hlenc
      simp at hlenc
      omega
    have hvals : ∀ x ∈ decodeVec L A c m, x = 0 ∨ x = A - 1 := by
      intro x hx
      rw [hcomb'] at hx
      rcases List.mem_append.1 hx with h1 | h1
      · exact Or.inl (List.eq_of_mem_replicate h1)
      · exact Or.inr (List.eq_of_mem_replicate h1)
    have hpre : ∃ u, decodeVec L A c m = List.replicate (L - c) 0 ++ u :=
      ⟨List.replicate b (A - 1), by rw [hcomb', ha]⟩
    have hmin := decode_min L A hA (L - c) c hc m hvals hpre
    unfold mstar at hm
    omega

theorem next_stateAt_mid (L A c m : Nat) (hA : 2 ≤ A) (hc : c ≤ L)
    (hm : m < mstar L A c) :
    (stateAt L A c m).next = .yield (decodeVec L A c (m + 1))
      (stateAt L A c (m + 1)) := by
  have hlast := is_last_stateAt_false L A c m hA hc hm
  have hgen := genLoop_eq
    (⟨decodeVec L A c m, m + 1, L, A, c, false⟩ : AttemptOrder) hA hc
  unfold AttemptOrder.next
  rw [show (stateAt L A c m).is_first = false from rfl]
  rw [hlast]
  simp only [Bool.false_eq_true, if_false]
  show (match (⟨decodeVec L A c m, m + 1, L, A, c, false⟩ :
      AttemptOrder).genLoop with
    | none => StepResult.crashed
    | some s2 => StepResult.yield s2.combination s2) = _
  rw [hgen]
  rfl

theorem next_stateAt_advance (L A c : Nat) (hA : 2 ≤ A) (hcL : c < L) :
    (stateAt L A c (mstar L A c)).next =
      .yield (decodeVec L A (c + 1) 0) (stateAt L A (c + 1) 0) := by
  have hlast := is_last_stateAt_true L A c hA (by omega)
  have hgen := genLoop_eq
    (⟨decodeVec L A c (mstar L A c), 0, L, A, c + 1, false⟩ : AttemptOrder)
    hA (by show c + 1 ≤ L; omega)
  unfold AttemptOrder.next
  rw [show (stateAt L A c (mstar L A c)).is_first = false from rfl]
  simp only [Bool.false_eq_true, if_false]
  rw [if_pos hlast]
  rw [if_neg (show ¬ ((stateAt L A c (mstar L A c)).num_changes =
    (stateAt L A c (mstar L A c)).key_length) from by
      show ¬ (c = L)
      omega)]
  show (match (⟨decodeVec L A c (mstar L A c), 0, L, A, c + 1, false⟩ :
      AttemptOrder).genLoop with
    | none => StepResult.crashed
    | some s2 => StepResult.yield s2.combination s2) = _
  rw [hgen]
  rfl

theorem next_stateAt_done (L A : Nat) (hA : 2 ≤ A) :
    (stateAt L A L (mstar L A L)).next =
      .done (stateAt L A L (mstar L A L)) := by
  have hlast := is_last_stateAt_true L A L hA le_rfl
  unfold AttemptOrder.next
  rw [show (stateAt L A L (mstar L A L)).is_first = false from rfl]
  simp only [Bool.false_eq_true, if_false]
  rw [if_pos hlast]
  rw [if_pos (show (stateAt L A L (mstar L A L)).num_changes =
    (stateAt L A L (mstar L A L)).key_length from rfl)]

end Vigenere

namespace Vigenere

/-! ## The complete run of the iterator -/

theorem run_from (L A : Nat) (hA : 2 ≤ A) :
    ∀ n c m, (rest L A c m).length = n → c ≤ L → m ≤ mstar L A c →
      ∃ F, run F (stateAt L A c m) =
        .finished (rest L A c m) (stateAt L A L (mstar L A L)) := by
  intro n
  induction n using Nat.strong_induction_on with
  | _ n ih =>
    intro c m hn hc hm
    by_cases h1 : m < mstar L A c
    · have hrest : rest L A c m =
          decodeVec L A c (m + 1) :: rest L A c (m + 1) := by
        rw [rest, if_pos h1]
      obtain ⟨F, hF⟩ := ih (rest L A c (m + 1)).length
        (by rw [hrest] at hn; simp at hn; omega) c (m + 1) rfl hc (by omega)
      refine ⟨F + 1, ?_⟩
      have hnext := next_stateAt_mid L A c m hA hc h1
      rw [show run (F + 1) (stateAt L A c m) =
        (match (stateAt L A c m).next with
          | .crashed => RunResult.crashedAfter []
          | .done sf => RunResult.finished [] sf
          | .yield v s1 =>
            match run F s1 with
            | .outOfFuel => RunResult.outOfFuel
            | .crashedAfter l => RunResult.crashedAfter (v :: l)
            | .finished l sf => RunResult.finished (v :: l) sf) from rfl]
      rw [hnext]
      show (match run F (stateAt L A c (m + 1)) with
        | .outOfFuel => RunResult.outOfFuel
        | .crashedAfter l =>
          RunResult.crashedAfter (decodeVec L A c (m + 1) :: l)
        | .finished l sf =>
          RunResult.finished (decodeVec L A c (m + 1) :: l) sf) = _
      rw [hF, hrest]
    · have hmeq : m = mstar L A c := by omega
      subst hmeq
      by_cases h2 : c < L
      · have hrest : rest L A c (mstar L A c) =
            decodeVec L A (c + 1) 0 :: rest L A (c + 1) 0 := by
          rw [rest, if_neg h1, if_pos h2]
        obtain ⟨F, hF⟩ := ih (rest L A (c + 1) 0).length
          (by rw [hrest] at hn; simp at hn; omega) (c + 1) 0 rfl (by omega)
          (Nat.zero_le _)
        refine ⟨F + 1, ?_⟩
        have hnext := next_stateAt_advance L A c hA h2
        rw [show run (F + 1) (stateAt L A c (mstar L A c)) =
          (match (stateAt L A c (mstar L A c)).next with
            | .crashed => RunResult.crashedAfter []
            | .done sf => RunResult.finished [] sf
            | .yield v s1 =>
              match run F s1 with
              | .outOfFuel => RunResult.outOfFuel
              | .crashedAfter l => RunResult.crashedAfter (v :: l)
              | .finished l sf => RunResult.finished (v :: l) sf) from rfl]
        rw [hnext]
        show (match run F (stateAt L A (c + 1) 0) with
          | .outOfFuel => RunResult.outOfFuel
          | .crashedAfter l =>
            RunResult.crashedAfter (decodeVec L A (c + 1) 0 :: l)
          | .finished l sf =>
            RunResult.finished (decodeVec L A (c + 1) 0 :: l) sf) = _
        rw [hF, hrest]
      · have hcL : L = c := by omega
        subst hcL
        have hrest : rest L A L (mstar L A L) = [] := by
          rw [rest, if_neg h1, if_neg h2]
        refine ⟨1, ?_⟩
        have hnext := next_stateAt_done L A hA
        rw [show run 1 (stateAt L A L (mstar L A L)) =
          (match (stateAt L A L (mstar L A L)).next with
            | .crashed => RunResult.crashedAfter []
            | .done sf => RunResult.finished [] sf
            | .yield v s1 =>
              match run 0 s1 with
              | .outOfFuel => RunResult.outOfFuel
              | .crashedAfter l => RunResult.crashedAfter (v :: l)
              | .finished l sf => RunResult.finished (v :: l) sf) from rfl]
        rw [hnext, hrest]

theorem run_new (L A : Nat) (hA : 2 ≤ A) :
    ∃ F, run F (AttemptOrder.new L A) =
      .finished (fullOutputs L A) (stateAt L A L (mstar L A L)) := by
  obtain ⟨F, hF⟩ := run_from L A hA (rest L A 0 0).length 0 0 rfl
    (Nat.zero_le L) (Nat.zero_le _)
  refine ⟨F + 1, ?_⟩
  have hnext : (AttemptOrder.new L A).next =
      .yield (List.replicate L 0) (stateAt L A 0 0) := rfl
  rw [show run (F + 1) (AttemptOrder.new L A) =
    (match (AttemptOrder.new L A).next with
      | .crashed => RunResult.crashedAfter []
      | .done sf => RunResult.finished [] sf
      | .yield v s1 =>
        match run F s1 with
        | .outOfFuel => RunResult.outOfFuel
        | .crashedAfter l => RunResult.crashedAfter (v :: l)
        | .finished l sf => RunResult.finished (v :: l) sf) from rfl]
  rw [hnext]
  show (match run F (stateAt L A 0 0) with
    | .outOfFuel => RunResult.outOfFuel
    | .crashedAfter l => RunResult.crashedAfter (List.replicate L 0 :: l)
    | .finished l sf =>
      RunResult.finished (List.replicate L 0 :: l) sf) = _
  rw [hF]
  rfl

end Vigenere

namespace Vigenere

/-! ## Structure of the output list -/

theorem rest_struct (L A : Nat) (hA : 2 ≤ A) :
    ∀ n c m, (rest L A c m).length = n → c ≤ L → m ≤ mstar L A c →
      rest L A c m =
        (List.range' (m + 1) (mstar L A c - m)).map (decodeVec L A c) ++
          ((List.range' (c + 1) (L - c)).map (levelList L A)).flatten := by
  intro n
  induction n using Nat.strong_induction_on with
  | _ n ih =>
    intro c m hn hc hm
    by_cases h1 : m < mstar L A c
    · have hrest : rest L A c m =
          decodeVec L A c (m + 1) :: rest L A c (m + 1) := by
        rw [rest, if_pos h1]
      have hIH := ih (rest L A c (m + 1)).length
        (by rw [hrest] at hn; simp at hn; omega) c (m + 1) rfl hc (by omega)
      rw [hrest, hIH]
      rw [show List.range' (m + 1) (mstar L A c - m) =
        (m + 1) :: List.range' (m + 2) (mstar L A c - (m + 1)) from by
          rw [show mstar L A c - m = (mstar L A c - (m + 1)) + 1 from by omega,
            List.range'_succ]]
      rfl
    · have hmeq : m = mstar L A c := by omega
      subst hmeq
      by_cases h2 : c < L
      · have hrest : rest L A c (mstar L A c) =
            decodeVec L A (c + 1) 0 :: rest L A (c + 1) 0 := by
          rw [rest, if_neg h1, if_pos h2]
        have hIH := ih (rest L A (c + 1) 0).length
          (by rw [hrest] at hn; simp at hn; omega) (c + 1) 0 rfl (by omega)
          (Nat.zero_le _)
        rw [hrest, hIH]
        rw [Nat.sub_self, show List.range' (mstar L A c + 1) 0 = [] from rfl]
        rw [List.map_nil, List.nil_append]
        rw [show List.range' (c + 1) (L - c) =
          (c + 1) :: List.range' (c + 2) (L - (c + 1)) from by
            rw [show L - c = (L - (c + 1)) + 1 from by omega,
              List.range'_succ]]
        rw [List.map_cons, List.flatten_cons]
        rw [show levelList L A (c + 1) = decodeVec L A (c + 1) 0 ::
          (List.range' 1 (mstar L A (c + 1))).map (decodeVec L A (c + 1))
          from by
            unfold levelList
            rw [List.range_eq_range', List.range'_succ, List.map_cons]]
        rfl
      · have hcL : L = c := by omega
        subst hcL
        rw [rest, if_neg h1, if_neg h2]
        rw [Nat.sub_self, Nat.sub_self]
        rfl

theorem fullOutputs_eq (L A : Nat) (hA : 2 ≤ A) :
    fullOutputs L A = ((List.range (L + 1)).map (levelList L A)).flatten := by
  unfold fullOutputs
  rw [rest_struct L A hA (rest L A 0 0).length 0 0 rfl (Nat.zero_le L)
    (Nat.zero_le _)]
  rw [show mstar L A 0 = 0 from rfl, Nat.sub_zero,
    show List.range' 1 0 = [] from rfl, List.map_nil, List.nil_append,
    Nat.sub_zero]
  rw [show List.range (L + 1) = 0 :: List.range' 1 L from by
    rw [List.range_eq_range', List.range'_succ]]
  rw [List.map_cons, List.flatten_cons]
  rw [show levelList L A 0 = [List.replicate L 0] from rfl]
  rfl

theorem mem_fullOutputs (L A : Nat) (hA : 2 ≤ A) (v : List Nat) :
    v ∈ fullOutputs L A ↔ (v.length = L ∧ ∀ x ∈ v, x < A) := by
  rw [fullOutputs_eq L A hA]
  constructor
  · intro hv
    obtain ⟨block, hbmem, hvb⟩ := List.mem_flatten.1 hv
    obtain ⟨c, hcmem, hceq⟩ := List.mem_map.1 hbmem
    rw [List.mem_range] at hcmem
    subst hceq
    obtain ⟨m, _, hmv⟩ := List.mem_map.1 hvb
    subst hmv
    refine ⟨decodeVec_length L A c m hA (by omega), ?_⟩
    intro x hx
    have := decodeVec_mem L A c m hA (by omega) x hx
    omega
  · rintro ⟨hlen, hbound⟩
    rw [List.mem_flatten]
    refine ⟨levelList L A (weight v), List.mem_map.2
      ⟨weight v, List.mem_range.2 ?_, rfl⟩, ?_⟩
    · have := weight_le_length v
      omega
    · unfold levelList
      rw [List.mem_map]
      refine ⟨encR L A v.reverse, List.mem_range.2 ?_, ?_⟩
      · have := encR_le_mstar L A hA v hlen hbound
        omega
      · exact decode_encR L A hA (weight v) v rfl hlen hbound

end Vigenere

namespace Vigenere

theorem rest_getLast (L A : Nat) (hA : 2 ≤ A) :
    ∀ n c m, (rest L A c m).length = n → c ≤ L → m ≤ mstar L A c →
      (decodeVec L A c m :: rest L A c m).getLast? =
        some (decodeVec L A L (mstar L A L)) := by
  intro n
  induction n using Nat.strong_induction_on with
  | _ n ih =>
    intro c m hn hc hm
    by_cases h1 : m < mstar L A c
    · have hrest : rest L A c m =
          decodeVec L A c (m + 1) :: rest L A c (m + 1) := by
        rw [rest, if_pos h1]
      rw [hrest, List.getLast?_cons_cons]
      exact ih (rest L A c (m + 1)).length
        (by rw [hrest] at hn; simp at hn; omega) c (m + 1) rfl hc (by omega)
    · have hmeq : m = mstar L A c := by omega
      subst hmeq
      by_cases h2 : c < L
      · have hrest : rest L A c (mstar L A c) =
            decodeVec L A (c + 1) 0 :: rest L A (c + 1) 0 := by
          rw [rest, if_neg h1, if_pos h2]
        rw [hrest, List.getLast?_cons_cons]
        exact ih (rest L A (c + 1) 0).length
          (by rw [hrest] at hn; simp at hn; omega) (c + 1) 0 rfl (by omega)
          (Nat.zero_le _)
      · have hcL : L = c := by omega
        subst hcL
        rw [rest, if_neg h1, if_neg h2]
        rfl

theorem fullOutputs_getLast (L A : Nat) (hA : 2 ≤ A) :
    (fullOutputs L A).getLast? = some (decodeVec L A L (mstar L A L)) := by
  unfold fullOutputs
  exact rest_getLast L A hA (rest L A 0 0).length 0 0 rfl (Nat.zero_le L)
    (Nat.zero_le _)

theorem rest_chain (L A : Nat) (hA : 2 ≤ A) :
    ∀ n c m, (rest L A c m).length = n → c ≤ L → m ≤ mstar L A c →
      List.Chain' (fun u w => weight w = weight u ∨ weight w = weight u + 1)
        (decodeVec L A c m :: rest L A c m) := by
  intro n
  induction n using Nat.strong_induction_on with
  | _ n ih =>
    intro c m hn hc hm
    by_cases h1 : m < mstar L A c
    · have hrest : rest L A c m =
          decodeVec L A c (m + 1) :: rest L A c (m + 1) := by
        rw [rest, if_pos h1]
      rw [hrest, List.chain'_cons]
      refine ⟨Or.inl ?_, ?_⟩
      · rw [decodeVec_weight L A c (m + 1) hA hc,
          decodeVec_weight L A c m hA hc]
      · exact ih (rest L A c (m + 1)).length
          (by rw [hrest] at hn; simp at hn; omega) c (m + 1) rfl hc
          (by omega)
    · have hmeq : m = mstar L A c := by omega
      subst hmeq
      by_cases h2 : c < L
      · have hrest : rest L A c (mstar L A c) =
            decodeVec L A (c + 1) 0 :: rest L A (c + 1) 0 := by
          rw [rest, if_neg h1, if_pos h2]
        rw [hrest, List.chain'_cons]
        refine ⟨Or.inr ?_, ?_⟩
        · rw [decodeVec_weight L A (c + 1) 0 hA (by omega),
            decodeVec_weight L A c (mstar L A c) hA hc]
        · exact ih (rest L A (c + 1) 0).length
            (by rw [hrest] at hn; simp at hn; omega) (c + 1) 0 rfl (by omega)
            (Nat.zero_le _)
      · have hcL : L = c := by omega
        subst hcL
        rw [rest, if_neg h1, if_neg h2]
        simp

theorem fullOutputs_chain (L A : Nat) (hA : 2 ≤ A) :
    List.Chain' (fun u w => weight w = weight u ∨ weight w = weight u + 1)
      (fullOutputs L A) := by
  unfold fullOutputs
  exact rest_chain L A hA (rest L A 0 0).length 0 0 rfl (Nat.zero_le L)
    (Nat.zero_le _)

/-! ## Fuel monotonicity of `run` -/

theorem run_finished_mono :
    ∀ F (s : AttemptOrder) l sf, run F s = .finished l sf →
      ∀ G, F ≤ G → run G s = .finished l sf := by
  intro F
  induction F with
  | zero =>
    intro s l sf h
    simp [run] at h
  | succ F ih =>
    intro s l sf h G hG
    obtain ⟨G', rfl⟩ : ∃ G', G = G' + 1 := ⟨G - 1, by omega⟩
    rw [run] at h ⊢
    cases hnext : s.next with
    | crashed =>
      rw [hnext] at h
      cases h
    | done sf2 =>
      rw [hnext] at h
      exact h
    | yield v s1 =>
      rw [hnext] at h
      dsimp only at h ⊢
      cases hrun : run F s1 with
      | outOfFuel => rw [hrun] at h; cases h
      | crashedAfter l2 => rw [hrun] at h; cases h
      | finished l2 sf2 =>
        rw [hrun] at h
        rw [ih s1 l2 sf2 hrun G' (by omega)]
        exact h

theorem run_crashed_mono :
    ∀ F (s : AttemptOrder) l, run F s = .crashedAfter l →
      ∀ G, F ≤ G → run G s = .crashedAfter l := by
  intro F
  induction F with
  | zero =>
    intro s l h
    simp [run] at h
  | succ F ih =>
    intro s l h G hG
    obtain ⟨G', rfl⟩ : ∃ G', G = G' + 1 := ⟨G - 1, by omega⟩
    rw [run] at h ⊢
    cases hnext : s.next with
    | crashed =>
      rw [hnext] at h
      exact h
    | done sf2 =>
      rw [hnext] at h
      cases h
    | yield v s1 =>
      rw [hnext] at h
      dsimp only at h ⊢
      cases hrun : run F s1 with
      | outOfFuel => rw [hrun] at h; cases h
      | crashedAfter l2 =>
        rw [hrun] at h
        rw [ih s1 l2 hrun G' (by omega)]
        exact h
      | finished l2 sf2 => rw [hrun] at h; cases h

theorem run_never_crashes (F : Nat) (s : AttemptOrder) (l : List (List Nat))
    (sf : AttemptOrder) (hfin : run F s = .finished l sf) :
    ∀ G lc, run G s ≠ .crashedAfter lc := by
  intro G lc hcr
  have h1 := run_finished_mono F s l sf hfin (F + G) (by omega)
  have h2 := run_crashed_mono G s lc hcr (F + G) (by omega)
  rw [h1] at h2
  cases h2

end Vigenere

namespace Vigenere

/-! ## Counting the vector spaces -/

theorem flatMap_cons_length (ws : List (List Nat)) :
    ∀ xs : List Nat,
      (xs.flatMap (fun x => ws.map (fun v => x :: v))).length =
        xs.length * ws.length := by
  intro xs
  induction xs with
  | nil => simp
  | cons x xs ih =>
    rw [List.flatMap_cons, List.length_append, List.length_map, ih]
    simp [Nat.succ_mul]
    omega

theorem allVecs_length (A : Nat) : ∀ L, (allVecs L A).length = A ^ L := by
  intro L
  induction L with
  | zero => rfl
  | succ L ih =>
    show ((List.range A).flatMap
      (fun x => (allVecs L A).map (fun v => x :: v))).length = A ^ (L + 1)
    rw [flatMap_cons_length, List.length_range, ih, Nat.pow_succ,
      Nat.mul_comm]

theorem mem_allVecs (A : Nat) :
    ∀ L v, v ∈ allVecs L A ↔ (v.length = L ∧ ∀ x ∈ v, x < A) := by
  intro L
  induction L with
  | zero =>
    intro v
    constructor
    · intro hv
      simp [allVecs] at hv
      subst hv
      simp
    · rintro ⟨hl, _⟩
      rw [List.length_eq_zero] at hl
      subst hl
      simp [allVecs]
  | succ L ih =>
    intro v
    constructor
    · intro hv
      obtain ⟨x, hx, hv2⟩ := List.mem_flatMap.1 hv
      obtain ⟨w, hw, hweq⟩ := List.mem_map.1 hv2
      subst hweq
      obtain ⟨hl, hb⟩ := (ih w).1 hw
      rw [List.mem_range] at hx
      refine ⟨by simp [hl], ?_⟩
      intro y hy
      rcases List.mem_cons.1 hy with h | h
      · omega
      · exact hb y h
    · rintro ⟨hl, hb⟩
      cases v with
      | nil => simp at hl
      | cons x w =>
        show x :: w ∈ (List.range A).flatMap
          (fun y => (allVecs L A).map (fun v => y :: v))
        rw [List.mem_flatMap]
        refine ⟨x, List.mem_range.2 (hb x (by simp)), List.mem_map.2
          ⟨w, (ih w).2 ⟨by simpa using hl, fun y hy => hb y (by simp [hy])⟩,
            rfl⟩⟩

theorem nodup_cons_blocks :
    ∀ blocks : List (Nat × List (List Nat)),
      (blocks.map Prod.fst).Nodup →
      (∀ p ∈ blocks, (p.2 : List (List Nat)).Nodup) →
      (blocks.flatMap (fun p => p.2.map (fun v => p.1 :: v))).Nodup := by
  intro blocks
  induction blocks with
  | nil => intro _ _; simp
  | cons b bs ih =>
    intro hhead hall
    rw [List.flatMap_cons, List.nodup_append]
    refine ⟨?_, ?_, ?_⟩
    · refine List.Nodup.map ?_ (hall b (by simp))
      intro u w huw
      simpa using huw
    · refine ih ?_ (fun p hp => hall p (by simp [hp]))
      rw [List.map_cons] at hhead
      exact hhead.of_cons
    · intro a ha hamem
      obtain ⟨w, _, hweq⟩ := List.mem_map.1 ha
      obtain ⟨p, hp, hpmem⟩ := List.mem_flatMap.1 hamem
      obtain ⟨w2, _, hw2eq⟩ := List.mem_map.1 hpmem
      rw [List.map_cons] at hhead
      have hne : b.1 ≠ p.1 := by
        intro hcontra
        have : b.1 ∈ bs.map Prod.fst := List.mem_map.2 ⟨p, hp, hcontra.symm⟩
        exact (List.nodup_cons.1 hhead).1 this
      rw [← hweq] at hw2eq
      exact hne (by injection hw2eq.symm)

theorem allVecs_blocks (L A : Nat) :
    allVecs (L + 1) A =
      ((List.range A).map (fun x => (x, allVecs L A))).flatMap
        (fun p => p.2.map (fun v => p.1 :: v)) := by
  show (List.range A).flatMap (fun x => (allVecs L A).map (fun v => x :: v)) = _
  induction List.range A with
  | nil => rfl
  | cons x xs ih => rw [List.flatMap_cons, List.map_cons, List.flatMap_cons, ih]

theorem allVecs_nodup (A : Nat) : ∀ L, (allVecs L A).Nodup := by
  intro L
  induction L with
  | zero =>
    show ([[]] : List (List Nat)).Nodup
    exact List.nodup_singleton []
  | succ L ih =>
    rw [allVecs_blocks]
    refine nodup_cons_blocks _ ?_ ?_
    · have : ((List.range A).map (fun x => (x, allVecs L A))).map Prod.fst =
          List.range A := by
        rw [List.map_map]
        show (List.range A).map (fun x => x) = List.range A
        simp
      rw [this]
      exact List.nodup_range A
    · intro p hp
      obtain ⟨x, _, hxeq⟩ := List.mem_map.1 hp
      rw [← hxeq]
      exact ih

end Vigenere

namespace Vigenere

theorem flatMap_headed_length (ws : List (List Nat)) (h : Nat → Nat) :
    ∀ xs : List Nat,
      (xs.flatMap (fun x => ws.map (fun v => h x :: v))).length =
        xs.length * ws.length := by
  intro xs
  induction xs with
  | nil => simp
  | cons x xs ih =>
    rw [List.flatMap_cons, List.length_append, List.length_map, ih]
    simp [Nat.succ_mul]
    omega

theorem weightVecs_length (A : Nat) :
    ∀ L c, (weightVecs A L c).length = Nat.choose L c * (A - 1) ^ c := by
  intro L
  induction L with
  | zero =>
    intro c
    cases c with
    | zero => rfl
    | succ c => simp [weightVecs]
  | succ L ih =>
    intro c
    cases c with
    | zero =>
      show ((weightVecs A L 0).map (fun v => 0 :: v)).length = _
      rw [List.length_map, ih 0]
      simp
    | succ c =>
      show ((weightVecs A L (c + 1)).map (fun v => 0 :: v) ++
        (List.range (A - 1)).flatMap
          (fun voff => (weightVecs A L c).map
            (fun v => (voff + 1) :: v))).length = _
      rw [List.length_append, List.length_map,
        flatMap_headed_length (weightVecs A L c) (fun voff => voff + 1),
        List.length_range, ih (c + 1), ih c, Nat.choose_succ_succ,
        Nat.pow_succ]
      ring

theorem mem_weightVecs (A : Nat) (hA : 2 ≤ A) :
    ∀ L c v, v ∈ weightVecs A L c ↔
      (v.length = L ∧ (∀ x ∈ v, x < A) ∧ weight v = c) := by
  intro L
  induction L with
  | zero =>
    intro c v
    cases c with
    | zero =>
      show v ∈ [[]] ↔ _
      constructor
      · intro hv
        simp at hv
        subst hv
        exact ⟨rfl, by simp, rfl⟩
      · rintro ⟨hl, _, _⟩
        rw [List.length_eq_zero] at hl
        subst hl
        simp
    | succ c =>
      show v ∈ ([] : List (List Nat)) ↔ _
      constructor
      · intro hv
        simp at hv
      · rintro ⟨hl, _, hw⟩
        rw [List.length_eq_zero] at hl
        subst hl
        simp [weight] at hw
  | succ L ih =>
    intro c v
    cases c with
    | zero =>
      show v ∈ (weightVecs A L 0).map (fun w => 0 :: w) ↔ _
      constructor
      · intro hv
        obtain ⟨w, hw, hweq⟩ := List.mem_map.1 hv
        subst hweq
        obtain ⟨hl, hb, hwt⟩ := (ih 0 w).1 hw
        refine ⟨by simp [hl], ?_, by simp [weight, hwt]⟩
        intro y hy
        rcases List.mem_cons.1 hy with h | h
        · omega
        · exact hb y h
      · rintro ⟨hl, hb, hw⟩
        cases v with
        | nil => simp at hl
        | cons x w =>
          have hx : x = 0 := by
            cases x with
            | zero => rfl
            | succ y => simp [weight] at hw
          subst hx
          refine List.mem_map.2 ⟨w, (ih 0 w).2
            ⟨by simpa using hl, fun y hy => hb y (by simp [hy]),
              by simpa [weight] using hw⟩, rfl⟩
    | succ c =>
      show v ∈ (weightVecs A L (c + 1)).map (fun w => 0 :: w) ++
        (List.range (A - 1)).flatMap
          (fun voff => (weightVecs A L c).map (fun w => (voff + 1) :: w)) ↔ _
      constructor
      · intro hv
        rcases List.mem_append.1 hv with h | h
        · obtain ⟨w, hw, hweq⟩ := List.mem_map.1 h
          subst hweq
          obtain ⟨hl, hb, hwt⟩ := (ih (c + 1) w).1 hw
          refine ⟨by simp [hl], ?_, by simp [weight, hwt]⟩
          intro y hy
          rcases List.mem_cons.1 hy with h2 | h2
          · omega
          · exact hb y h2
        · obtain ⟨voff, hvoff, h2⟩ := List.mem_flatMap.1 h
          obtain ⟨w, hw, hweq⟩ := List.mem_map.1 h2
          subst hweq
          obtain ⟨hl, hb, hwt⟩ := (ih c w).1 hw
          rw [List.mem_range] at hvoff
          refine ⟨by simp [hl], ?_, by simp [weight, hwt]⟩
          intro y hy
          rcases List.mem_cons.1 hy with h2 | h2
          · omega
          · exact hb y h2
      · rintro ⟨hl, hb, hw⟩
        cases v with
        | nil => simp at hl
        | cons x w =>
          cases x with
          | zero =>
            refine List.mem_append_left _ (List.mem_map.2 ⟨w, (ih (c + 1) w).2
              ⟨by simpa using hl, fun y hy => hb y (by simp [hy]),
                by simpa [weight] using hw⟩, rfl⟩)
          | succ voff =>
            refine List.mem_append_right _ (List.mem_flatMap.2
              ⟨voff, List.mem_range.2 ?_, List.mem_map.2 ⟨w, (ih c w).2
                ⟨by simpa using hl, fun y hy => hb y (by simp [hy]), ?_⟩,
                rfl⟩⟩)
            · have := hb (voff + 1) (by simp)
              omega
            · simp [weight] at hw
              omega

theorem weightVecs_blocks (L A c : Nat) :
    weightVecs A (L + 1) (c + 1) =
      List.flatMap
        ((0, weightVecs A L (c + 1)) ::
          (List.range (A - 1)).map (fun voff => (voff + 1, weightVecs A L c)))
        (fun p => p.2.map (fun v => p.1 :: v)) := by
  rw [List.flatMap_cons]
  show (weightVecs A L (c + 1)).map (fun v => 0 :: v) ++
    (List.range (A - 1)).flatMap
      (fun voff => (weightVecs A L c).map (fun v => (voff + 1) :: v)) = _
  congr 1
  induction List.range (A - 1) with
  | nil => rfl
  | cons x xs ih => rw [List.flatMap_cons, List.map_cons, List.flatMap_cons, ih]

theorem weightVecs_nodup (A : Nat) : ∀ L c, (weightVecs A L c).Nodup := by
  intro L
  induction L with
  | zero =>
    intro c
    cases c with
    | zero => exact List.nodup_singleton []
    | succ c => exact List.nodup_nil
  | succ L ih =>
    intro c
    cases c with
    | zero =>
      show ((weightVecs A L 0).map (fun v => 0 :: v)).Nodup
      refine List.Nodup.map ?_ (ih 0)
      intro u w huw
      simpa using huw
    | succ c =>
      rw [weightVecs_blocks]
      refine nodup_cons_blocks _ ?_ ?_
      · rw [List.map_cons, List.map_map]
        rw [show ((List.range (A - 1)).map
            ((fun p => p.1) ∘ fun voff => (voff + 1, weightVecs A L c))) =
          (List.range (A - 1)).map (fun voff => voff + 1) from rfl]
        rw [List.nodup_cons]
        refine ⟨?_, List.Nodup.map (fun u w h => by omega)
          (List.nodup_range _)⟩
        intro hmem
        obtain ⟨voff, _, hveq⟩ := List.mem_map.1 hmem
        omega
      · intro p hp
        rcases List.mem_cons.1 hp with h | h
        · rw [h]
          exact ih (c + 1)
        · obtain ⟨voff, _, hveq⟩ := List.mem_map.1 h
          rw [← hveq]
          exact ih c

end Vigenere

namespace Vigenere

/-! ## The outputs of a single level -/

theorem mem_levelList_iff (L A c : Nat) (hA : 2 ≤ A) (hc : c ≤ L)
    (v : List Nat) :
    v ∈ levelList L A c ↔
      (v.length = L ∧ (∀ x ∈ v, x < A) ∧ weight v = c) := by
  constructor
  · intro hv
    obtain ⟨m, _, hmv⟩ := List.mem_map.1 hv
    subst hmv
    refine ⟨decodeVec_length L A c m hA hc, ?_,
      decodeVec_weight L A c m hA hc⟩
    intro x hx
    have := decodeVec_mem L A c m hA hc x hx
    omega
  · rintro ⟨hl, hb, hw⟩
    unfold levelList
    rw [List.mem_map]
    refine ⟨encR L A v.reverse, List.mem_range.2 ?_, ?_⟩
    · have h := encR_le_mstar L A hA v hl hb
      rw [hw] at h
      omega
    · rw [← hw]
      exact decode_encR L A hA (weight v) v rfl hl hb

theorem filter_levelList (L A c c' : Nat) (hA : 2 ≤ A) (hc' : c' ≤ L) :
    (levelList L A c').filter (fun v => weight v == c) =
      if c' = c then levelList L A c' else [] := by
  by_cases h : c' = c
  · subst h
    rw [if_pos rfl, List.filter_eq_self]
    intro v hv
    obtain ⟨m, _, hmv⟩ := List.mem_map.1 hv
    subst hmv
    simp [decodeVec_weight L A c' m hA hc']
  · rw [if_neg h]
    rw [List.filter_eq_nil_iff]
    intro v hv
    obtain ⟨m, _, hmv⟩ := List.mem_map.1 hv
    subst hmv
    simp [decodeVec_weight L A c' m hA hc']
    omega

theorem filter_flatten_levels (L A c : Nat) (hA : 2 ≤ A) :
    ∀ cs : List Nat, (∀ x ∈ cs, x ≤ L) →
      ((cs.map (levelList L A)).flatten.filter (fun v => weight v == c)) =
        (((cs.filter (fun x => x == c)).map (levelList L A)).flatten) := by
  intro cs
  induction cs with
  | nil => intro _; rfl
  | cons c' cs ih =>
    intro hcs
    rw [List.map_cons, List.flatten_cons, List.filter_append,
      filter_levelList L A c c' hA (hcs c' (by simp)),
      ih (fun x hx => hcs x (by simp [hx]))]
    by_cases h : c' = c
    · rw [if_pos h, show List.filter (fun x => x == c) (c' :: cs) =
        c' :: List.filter (fun x => x == c) cs from by
          rw [List.filter_cons]
          simp [h]]
      rw [List.map_cons, List.flatten_cons]
    · rw [if_neg h, show List.filter (fun x => x == c) (c' :: cs) =
        List.filter (fun x => x == c) cs from by
          rw [List.filter_cons]
          simp [h]]
      rfl

theorem range_filter_single (c : Nat) :
    ∀ n, (List.range n).filter (fun x => x == c) =
      if c < n then [c] else [] := by
  intro n
  induction n with
  | zero => simp
  | succ n ih =>
    rw [List.range_succ, List.filter_append, ih]
    by_cases h : c < n
    · rw [if_pos h, if_pos (by omega)]
      rw [show List.filter (fun x => x == c) [n] = [] from by
        simp
        omega]
      simp
    · by_cases h2 : c = n
      · subst h2
        rw [if_neg h, if_pos (by omega)]
        simp
      · rw [if_neg h, if_neg (by omega)]
        simp
        omega

theorem filter_fullOutputs (L A c : Nat) (hA : 2 ≤ A) (hc : c ≤ L) :
    (fullOutputs L A).filter (fun v => weight v == c) = levelList L A c := by
  rw [fullOutputs_eq L A hA,
    filter_flatten_levels L A c hA (List.range (L + 1))
      (fun x hx => by rw [List.mem_range] at hx; omega),
    range_filter_single c (L + 1), if_pos (by omega)]
  simp

theorem levelList_length (L A c : Nat) :
    (levelList L A c).length = mstar L A c + 1 := by
  unfold levelList
  rw [List.length_map, List.length_range]

theorem levelList_toFinset (L A c : Nat) (hA : 2 ≤ A) (hc : c ≤ L) :
    (levelList L A c).toFinset = (weightVecs A L c).toFinset := by
  ext v
  rw [List.mem_toFinset, List.mem_toFinset, mem_levelList_iff L A c hA hc,
    mem_weightVecs A hA L c]

theorem levelList_card (L A c : Nat) (hA : 2 ≤ A) (hc : c ≤ L) :
    (levelList L A c).toFinset.card = Nat.choose L c * (A - 1) ^ c := by
  rw [levelList_toFinset L A c hA hc,
    List.toFinset_card_of_nodup (weightVecs_nodup A L c),
    weightVecs_length A L c]

end Vigenere

namespace Vigenere

theorem fullOutputs_length_ge (L A : Nat) (hA : 2 ≤ A) :
    A ^ L ≤ (fullOutputs L A).length := by
  have h1 : (allVecs L A).toFinset ⊆ (fullOutputs L A).toFinset := by
    intro v hv
    rw [List.mem_toFinset] at hv ⊢
    rw [mem_fullOutputs L A hA]
    exact (mem_allVecs A L v).1 hv
  have h2 := Finset.card_le_card h1
  rw [List.toFinset_card_of_nodup (allVecs_nodup A L), allVecs_length A L]
    at h2
  have h3 := List.toFinset_card_le (fullOutputs L A)
  omega

/-! ## Claim theorems for the enumerator -/

/-- C1, counterexample: for `L = 2`, `A = 3` the complete output sequence of
`AttemptOrder::new(2, 3)` has 11 vectors, is not pairwise distinct (`[1,1]`
and `[2,1]` each occur twice), and its length is not `3^2 = 9`, contradicting
the claim as stated. -/
theorem c1_distinctness_fails :
    runOut 12 (AttemptOrder.new 2 3) =
      some [[0, 0], [1, 0], [0, 1], [2, 0], [0, 2], [1, 1], [1, 2], [1, 1],
        [2, 1], [2, 1], [2, 2]] ∧
    ¬ ([[0, 0], [1, 0], [0, 1], [2, 0], [0, 2], [1, 1], [1, 2], [1, 1],
        [2, 1], [2, 1], [2, 2]] : List (List Nat)).Nodup ∧
    ([[0, 0], [1, 0], [0, 1], [2, 0], [0, 2], [1, 1], [1, 2], [1, 1],
        [2, 1], [2, 1], [2, 2]] : List (List Nat)).length ≠ 3 ^ 2 := by
  exact ⟨by decide, by decide, by decide⟩

/-- C1 (amended): for every `L ≥ 0` and `A ≥ 2`, the complete output
sequence of `AttemptOrder::new(L, A)` pulled via `next()` until it returns
`None` covers the full space — the set of produced vectors equals the set of
all length-`L` vectors with entries in `[0, A-1]`, so no vector is skipped —
but vectors can be produced more than once, so the sequence contains at
least `A^L` vectors rather than exactly `A^L` pairwise-distinct ones. -/
theorem c1_coverage_total (L A : Nat) (hA : 2 ≤ A) :
    ∃ F out sf, run F (AttemptOrder.new L A) = .finished out sf ∧
      (∀ v, v ∈ out ↔ (v.length = L ∧ ∀ x ∈ v, x < A)) ∧
      A ^ L ≤ out.length := by
  obtain ⟨F, hF⟩ := run_new L A hA
  exact ⟨F, fullOutputs L A, stateAt L A L (mstar L A L), hF,
    fun v => mem_fullOutputs L A hA v, fullOutputs_length_ge L A hA⟩

/-- Witness for C1 at `L = 2`, `A = 3`. -/
theorem c1_coverage_total_witness :
    2 ≤ 3 ∧
    (∃ F out sf, run F (AttemptOrder.new 2 3) = .finished out sf ∧
      (∀ v, v ∈ out ↔ (v.length = 2 ∧ ∀ x ∈ v, x < 3)) ∧
      3 ^ 2 ≤ out.length) :=
  ⟨by decide, c1_coverage_total 2 3 (by decide)⟩

/-- C2, counterexample: at `L = 2`, `A = 3` the level `c = 2` produces 6
vectors (with repetitions), not `C(2,2)·(3-1)^2 = 4` as claimed. -/
theorem c2_level_size_fails :
    (((runOut 12 (AttemptOrder.new 2 3)).getD []).filter
      (fun v => weight v == 2)).length = 6 ∧
    (6 : Nat) ≠ Nat.choose 2 2 * (3 - 1) ^ 2 := by
  exact ⟨by decide, by decide⟩

/-- C2 (amended): for every `L`, `A ≥ 2` and level `c ≤ L`, the number of
DISTINCT vectors produced at level `c` (outputs whose count of nonzero
entries is `c`) is exactly `C(L,c)·(A-1)^c`; the number of outputs at that
level counted with repetitions is `mstar L A c + 1`, which can exceed it. -/
theorem c2_level_sizes (L A c : Nat) (hA : 2 ≤ A) (hc : c ≤ L) :
    ∃ F out sf, run F (AttemptOrder.new L A) = .finished out sf ∧
      (out.filter (fun v => weight v == c)).toFinset.card =
        Nat.choose L c * (A - 1) ^ c ∧
      (out.filter (fun v => weight v == c)).length = mstar L A c + 1 := by
  obtain ⟨F, hF⟩ := run_new L A hA
  refine ⟨F, fullOutputs L A, stateAt L A L (mstar L A L), hF, ?_, ?_⟩
  · rw [filter_fullOutputs L A c hA hc, levelList_card L A c hA hc]
  · rw [filter_fullOutputs L A c hA hc, levelList_length]

/-- Witness for C2 at `L = 2`, `A = 3`, `c = 2`. -/
theorem c2_level_sizes_witness :
    2 ≤ 3 ∧ 2 ≤ 2 ∧
    (∃ F out sf, run F (AttemptOrder.new 2 3) = .finished out sf ∧
      (out.filter (fun v => weight v == 2)).toFinset.card =
        Nat.choose 2 2 * (3 - 1) ^ 2 ∧
      (out.filter (fun v => weight v == 2)).length = mstar 2 3 2 + 1) :=
  ⟨by decide, by decide, c2_level_sizes 2 3 2 (by decide) (by decide)⟩

/-- C3, counterexample: `AttemptOrder::new(2, 3)` does not produce the
9-vector sequence stated in the claim. -/
theorem c3_claimed_sequence_fails :
    runOut 12 (AttemptOrder.new 2 3) ≠
      some [[0, 0], [1, 0], [0, 1], [2, 0], [0, 2], [1, 1], [1, 2], [2, 1],
        [2, 2]] := by
  decide

/-- C3 (amended): `AttemptOrder::new(2, 3)` yields exactly
`[0,0]; [1,0],[0,1],[2,0],[0,2]; [1,1],[1,2],[1,1],[2,1],[2,1],[2,2]` —
eleven vectors, with `[1,1]` and `[2,1]` produced twice — and the call after
`[2,2]` returns `None`, permanently. -/
theorem c3_sequence_L2_A3 :
    run 12 (AttemptOrder.new 2 3) =
      .finished
        [[0, 0], [1, 0], [0, 1], [2, 0], [0, 2], [1, 1], [1, 2], [1, 1],
          [2, 1], [2, 1], [2, 2]]
        ⟨[2, 2], 5, 2, 3, 2, false⟩ ∧
    AttemptOrder.next ⟨[2, 2], 5, 2, 3, 2, false⟩ =
      .done ⟨[2, 2], 5, 2, 3, 2, false⟩ := by
  exact ⟨by decide, by decide⟩

/-- C4: with `key_length = 1` and `alphabet_size = 1`, the first call to
`next()` yields the baseline `[0]` and the second call panics — in
`get_combination_part`, `cols = num_letters - 1 = 0` and `(n / rows) % cols`
is a remainder by zero — instead of returning `None` as the claim
requires. -/
theorem c4_small_alphabet_panics :
    run 2 (AttemptOrder.new 1 1) = .crashedAfter [[0]] := by
  decide

/-- C5: for every `L ≥ 1` and `A ≥ 2`, the last vector produced before
exhaustion is the all-maximal vector (every entry `A - 1`), and the
exhausted state returns `None` forever (its `next` is `done` with the state
unchanged). -/
theorem c5_terminal_vector (L A : Nat) (hL : 1 ≤ L) (hA : 2 ≤ A) :
    ∃ F out sf, run F (AttemptOrder.new L A) = .finished out sf ∧
      out.getLast? = some (List.replicate L (A - 1)) ∧
      sf.next = .done sf := by
  obtain ⟨F, hF⟩ := run_new L A hA
  refine ⟨F, fullOutputs L A, stateAt L A L (mstar L A L), hF, ?_,
    next_stateAt_done L A hA⟩
  rw [fullOutputs_getLast L A hA, decode_mstar L A L hA le_rfl,
    Nat.sub_self]
  simp

/-- Witness for C5 at `L = 2`, `A = 3`. -/
theorem c5_terminal_vector_witness :
    1 ≤ 2 ∧ 2 ≤ 3 ∧
    (∃ F out sf, run F (AttemptOrder.new 2 3) = .finished out sf ∧
      out.getLast? = some (List.replicate 2 (3 - 1)) ∧
      sf.next = .done sf) :=
  ⟨by decide, by decide, c5_terminal_vector 2 3 (by decide) (by decide)⟩

/-- C6: for every `L ≥ 0`, `A ≥ 2`: the first output is the all-zero vector,
every output has length `L` with entries in `[0, A-1]`, and the Hamming
weights of successive outputs are non-decreasing, increasing by exactly 1 at
level boundaries. -/
theorem c6_ordering_invariants (L A : Nat) (hA : 2 ≤ A) :
    ∃ F out sf, run F (AttemptOrder.new L A) = .finished out sf ∧
      out.head? = some (List.replicate L 0) ∧
      (∀ v ∈ out, v.length = L ∧ ∀ x ∈ v, x < A) ∧
      List.Chain' (fun u w => weight w = weight u ∨ weight w = weight u + 1)
        out := by
  obtain ⟨F, hF⟩ := run_new L A hA
  refine ⟨F, fullOutputs L A, stateAt L A L (mstar L A L), hF, rfl, ?_,
    fullOutputs_chain L A hA⟩
  intro v hv
  exact (mem_fullOutputs L A hA v).1 hv

/-- Witness for C6 at `L = 2`, `A = 3`. -/
theorem c6_ordering_invariants_witness :
    2 ≤ 3 ∧
    (∃ F out sf, run F (AttemptOrder.new 2 3) = .finished out sf ∧
      out.head? = some (List.replicate 2 0) ∧
      (∀ v ∈ out, v.length = 2 ∧ ∀ x ∈ v, x < 3) ∧
      List.Chain' (fun u w => weight w = weight u ∨ weight w = weight u + 1)
        out) :=
  ⟨by decide, c6_ordering_invariants 2 3 (by decide)⟩

/-- C7: for every `L ≥ 0`, `A ≥ 2`, pulling `next()` any number of times on
`AttemptOrder::new(L, A)` never panics: no run ever reaches the `crashed`
outcome, for any fuel. -/
theorem c7_totality (L A fuel : Nat) (hA : 2 ≤ A) (l : List (List Nat)) :
    run fuel (AttemptOrder.new L A) ≠ .crashedAfter l := by
  obtain ⟨F, hF⟩ := run_new L A hA
  exact run_never_crashes F _ _ _ hF fuel l

/-- Witness for C7 at `L = 2`, `A = 3`, 20 pulls. -/
theorem c7_totality_witness :
    2 ≤ 3 ∧ run 20 (AttemptOrder.new 2 3) ≠ .crashedAfter [] :=
  ⟨by decide, c7_totality 2 3 20 (by decide) []⟩

/-- C8: for `key_length = 0` and any `alphabet_size ≥ 2`, the enumerator
yields exactly one empty vector and then returns `None` forever. -/
theorem c8_empty_key (A : Nat) (hA : 2 ≤ A) :
    run 2 (AttemptOrder.new 0 A) =
      .finished [[]] ⟨[], 0, 0, A, 0, false⟩ ∧
    AttemptOrder.next ⟨[], 0, 0, A, 0, false⟩ =
      .done ⟨[], 0, 0, A, 0, false⟩ := by
  exact ⟨rfl, rfl⟩

/-- Witness for C8 at `A = 26`. -/
theorem c8_empty_key_witness :
    2 ≤ 26 ∧
    (run 2 (AttemptOrder.new 0 26) =
      .finished [[]] ⟨[], 0, 0, 26, 0, false⟩ ∧
    AttemptOrder.next ⟨[], 0, 0, 26, 0, false⟩ =
      .done ⟨[], 0, 0, 26, 0, false⟩) :=
  ⟨by decide, c8_empty_key 26 (by decide)⟩

end Vigenere

namespace Vigenere

/-! ## Cipher round trip (claim C9) -/

theorem decrypt_encrypt_char (x k : Nat) (hx : x < 26) (hk : k < 26) :
    decrypt_char (encrypt_char x k) k = x := by
  unfold decrypt_char encrypt_char
  rcases Nat.lt_or_ge (x + k) 26 with h | h
  · rw [Nat.mod_eq_of_lt h]
    have h2 : x + k + 26 - k = x + 26 := by omega
    rw [h2, Nat.add_mod_right, Nat.mod_eq_of_lt hx]
  · have h1 : (x + k) % 26 = x + k - 26 := by
      rw [Nat.mod_eq_sub_mod h, Nat.mod_eq_of_lt (by omega)]
    have h2 : x + k - 26 + 26 - k = x := by omega
    rw [h1, h2, Nat.mod_eq_of_lt hx]

theorem getElem_encrypt_str (s key : List Nat) (j : Nat) (h : j < s.length)
    (hj : j < (encrypt_str s key).length) :
    (encrypt_str s key)[j] =
      encrypt_char s[j] (key.getD (j % key.length) 0) := by
  simp [encrypt_str, List.getElem_enum]

theorem decrypt_encrypt_str (s key : List Nat) (hs : ∀ c ∈ s, c < 26)
    (hkc : ∀ c ∈ key, c < 26) (hk : key ≠ []) :
    decrypt_str (encrypt_str s key) key = s := by
  have hkl : 0 < key.length := List.length_pos.mpr hk
  apply List.ext_getElem
  · simp [decrypt_str, encrypt_str]
  · intro j h1 h2
    simp only [decrypt_str, List.getElem_map, List.getElem_enum]
    rw [getElem_encrypt_str s key j h2 (by simpa [encrypt_str] using h2)]
    apply decrypt_encrypt_char
    · exact hs _ (List.getElem_mem h2)
    · have hm : j % key.length < key.length := Nat.mod_lt _ hkl
      rw [List.getD_eq_getElem key 0 hm]
      exact hkc _ (List.getElem_mem hm)

/-- C9: encryption and decryption are mutually inverse — for symbols `x, k`
in `[0, 26)`, `decrypt_char (encrypt_char x k) k = x`, and for every encoded
string `s` and nonempty key `key` with all entries in `[0, 26)`,
`decrypt_str (encrypt_str s key) key = s`. -/
theorem c9_cipher_inverse (x k : Nat) (s key : List Nat)
    (hx : x < 26) (hk : k < 26) (hs : ∀ c ∈ s, c < 26)
    (hkc : ∀ c ∈ key, c < 26) (hkey : key ≠ []) :
    decrypt_char (encrypt_char x k) k = x ∧
    decrypt_str (encrypt_str s key) key = s :=
  ⟨decrypt_encrypt_char x k hx hk, decrypt_encrypt_str s key hs hkc hkey⟩

/-- Witness for C9 at `x = 5`, `k = 9`, `s = [7,4,11,11,14]`,
`key = [1, 2]`. -/
theorem c9_cipher_inverse_witness :
    5 < 26 ∧ 9 < 26 ∧ (∀ c ∈ [7, 4, 11, 11, 14], c < 26) ∧
    (∀ c ∈ [1, 2], c < 26) ∧ ([1, 2] : List Nat) ≠ [] ∧
    (decrypt_char (encrypt_char 5 9) 9 = 5 ∧
     decrypt_str (encrypt_str [7, 4, 11, 11, 14] [1, 2]) [1, 2] =
       [7, 4, 11, 11, 14]) :=
  ⟨by decide, by decide, by decide, by decide, by decide,
    c9_cipher_inverse 5 9 [7, 4, 11, 11, 14] [1, 2] (by decide) (by decide)
      (by decide) (by decide) (by decide)⟩

end Vigenere


namespace Vigenere

/-! ## Dictionary trie (claim C10) -/

theorem wf_emptyNode : WfNode emptyNode := by
  refine WfNode.mk _ (by simp) ?_
  intro c hc
  have h := List.eq_of_mem_replicate hc
  simp at h

theorem hasPath_emptyNode (s : List Nat) : hasPath s emptyNode ↔ s = [] := by
  cases s with
  | nil => simp [hasPath]
  | cons x xs =>
    simp only [hasPath, emptyNode, Node.children]
    constructor
    · rintro ⟨c, hc, _⟩
      rw [List.get?_eq_getElem?, List.getElem?_replicate] at hc
      split at hc
      · simp at hc
      · simp at hc
    · intro h
      exact absurd h (by simp)

theorem wf_children_length (n : Node) (h : WfNode n) :
    n.children.length = 26 := by
  cases h with
  | mk c hlen _ => exact hlen

theorem wf_child (n : Node) (h : WfNode n) (x : Nat) (c : Node)
    (hc : n.children.get? x = some (some c)) : WfNode c := by
  cases h with
  | mk ch hlen hmem =>
    apply hmem
    rw [List.get?_eq_getElem?] at hc
    exact List.getElem?_mem hc

theorem nodeAdd_total (w : List Nat) (t : Node) (hw : ∀ c ∈ w, c < 26)
    (ht : WfNode t) : ∃ t', nodeAdd w t = some t' ∧ WfNode t' := by
  induction w generalizing t with
  | nil => exact ⟨t, rfl, ht⟩
  | cons x xs ih =>
    have hx : x < 26 := hw x (by simp)
    have hxs : ∀ c ∈ xs, c < 26 := fun c hc => hw c (by simp [hc])
    have hlen : t.children.length = 26 := wf_children_length t ht
    have hget : ∃ o, t.children.get? x = some o := by
      rw [List.get?_eq_getElem?]
      have hx2 : x < t.children.length := by omega
      rw [List.getElem?_eq_getElem hx2]
      exact ⟨_, rfl⟩
    obtain ⟨o, ho⟩ := hget
    cases o with
    | some child =>
      have hchild : WfNode child := wf_child t ht x child ho
      obtain ⟨c', hc', hwfc'⟩ := ih child hxs hchild
      refine ⟨Node.mk (t.children.set x (some c')), ?_, ?_⟩
      · rw [show nodeAdd (x :: xs) t =
          (match t.children.get? x with
          | none => none
          | some (some child) =>
            (nodeAdd xs child).map
              (fun c => Node.mk (t.children.set x (some c)))
          | some none =>
            (nodeAdd xs emptyNode).map
              (fun c => Node.mk (t.children.set x (some c)))) from rfl, ho]
        dsimp only
        rw [hc']
        rfl
      · refine WfNode.mk _ (by simp [hlen]) ?_
        intro c hc
        rcases List.mem_or_eq_of_mem_set hc with h | h
        · cases ht with
          | mk ch hl hm => exact hm c h
        · cases h
          exact hwfc'
    | none =>
      obtain ⟨c', hc', hwfc'⟩ := ih emptyNode hxs wf_emptyNode
      refine ⟨Node.mk (t.children.set x (some c')), ?_, ?_⟩
      · rw [show nodeAdd (x :: xs) t =
          (match t.children.get? x with
          | none => none
          | some (some child) =>
            (nodeAdd xs child).map
              (fun c => Node.mk (t.children.set x (some c)))
          | some none =>
            (nodeAdd xs emptyNode).map
              (fun c => Node.mk (t.children.set x (some c)))) from rfl, ho]
        dsimp only
        rw [hc']
        rfl
      · refine WfNode.mk _ (by simp [hlen]) ?_
        intro c hc
        rcases List.mem_or_eq_of_mem_set hc with h | h
        · cases ht with
          | mk ch hl hm => exact hm c h
        · cases h
          exact hwfc'

theorem prefixOfWord_nil_left (w : List Nat) : prefixOfWord [] w := ⟨w, rfl⟩

theorem prefixOfWord_cons (y : Nat) (ys : List Nat) (x : Nat)
    (xs : List Nat) :
    prefixOfWord (y :: ys) (x :: xs) ↔ y = x ∧ prefixOfWord ys xs := by
  constructor
  · rintro ⟨tl, htl⟩
    rw [List.cons_append] at htl
    injection htl with h1 h2
    exact ⟨h1.symm, tl, h2⟩
  · rintro ⟨rfl, tl, htl⟩
    exact ⟨tl, by rw [htl, List.cons_append]⟩

theorem not_prefixOfWord_cons_nil (y : Nat) (ys : List Nat) :
    ¬ prefixOfWord (y :: ys) [] := by
  rintro ⟨tl, htl⟩
  simp at htl

theorem hasPath_cons (y : Nat) (ys : List Nat) (n : Node) :
    hasPath (y :: ys) n ↔
      ∃ c, n.children.get? y = some (some c) ∧ hasPath ys c := Iff.rfl

theorem nodeAdd_path (w : List Nat) (t t' : Node)
    (h : nodeAdd w t = some t') (s : List Nat) :
    hasPath s t' ↔ hasPath s t ∨ prefixOfWord s w := by
  induction w generalizing t t' s with
  | nil =>
    injection h with h
    subst h
    cases s with
    | nil => simp [hasPath, prefixOfWord_nil_left]
    | cons y ys =>
      constructor
      · exact Or.inl
      · rintro (hp | hpre)
        · exact hp
        · exact absurd hpre (not_prefixOfWord_cons_nil y ys)
  | cons x xs ih =>
    rw [show nodeAdd (x :: xs) t =
      (match t.children.get? x with
      | none => none
      | some (some child) =>
        (nodeAdd xs child).map (fun c => Node.mk (t.children.set x (some c)))
      | some none =>
        (nodeAdd xs emptyNode).map
          (fun c => Node.mk (t.children.set x (some c)))) from rfl] at h
    cases ho : t.children.get? x with
    | none => rw [ho] at h; exact absurd h (by simp)
    | some o =>
      rw [ho] at h
      have hxlt : x < t.children.length := by
        rw [List.get?_eq_getElem?] at ho
        exact (List.getElem?_eq_some.mp ho).1
      cases o with
      | some child =>
        dsimp only at h
        rw [Option.map_eq_some'] at h
        obtain ⟨c', hc', rfl⟩ := h
        have hset : (t.children.set x (some c')).get? x = some (some c') := by
          rw [List.get?_eq_getElem?]
          exact List.getElem?_set_self hxlt
        cases s with
        | nil => simp [hasPath]
        | cons y ys =>
          by_cases hyx : y = x
          · subst hyx
            rw [hasPath_cons, prefixOfWord_cons]
            constructor
            · rintro ⟨c, hcg, hpath⟩
              rw [show (Node.mk (t.children.set y (some c'))).children =
                t.children.set y (some c') from rfl, hset] at hcg
              injection hcg with hcg
              injection hcg with hcg
              subst hcg
              rcases (ih child c' hc' ys).1 hpath with hl | hr
              · exact Or.inl ⟨child, ho, hl⟩
              · exact Or.inr ⟨rfl, hr⟩
            · rintro (⟨c, hcg, hpath⟩ | ⟨-, hpre⟩)
              · rw [ho] at hcg
                injection hcg with hcg
                injection hcg with hcg
                subst hcg
                exact ⟨c', hset, (ih child c' hc' ys).2 (Or.inl hpath)⟩
              · exact ⟨c', hset, (ih child c' hc' ys).2 (Or.inr hpre)⟩
          · have hsetne : (t.children.set x (some c')).get? y =
                t.children.get? y := by
              rw [List.get?_eq_getElem?, List.get?_eq_getElem?]
              exact List.getElem?_set_ne (fun he => hyx he.symm)
            rw [hasPath_cons, hasPath_cons, prefixOfWord_cons,
              show (Node.mk (t.children.set x (some c'))).children =
                t.children.set x (some c') from rfl, hsetne]
            constructor
            · exact fun hp => Or.inl hp
            · rintro (hp | ⟨hyx', -⟩)
              · exact hp
              · exact absurd hyx' hyx
      | none =>
        dsimp only at h
        rw [Option.map_eq_some'] at h
        obtain ⟨c', hc', rfl⟩ := h
        have hset : (t.children.set x (some c')).get? x = some (some c') := by
          rw [List.get?_eq_getElem?]
          exact List.getElem?_set_self hxlt
        cases s with
        | nil => simp [hasPath]
        | cons y ys =>
          by_cases hyx : y = x
          · subst hyx
            rw [hasPath_cons, prefixOfWord_cons]
            constructor
            · rintro ⟨c, hcg, hpath⟩
              rw [show (Node.mk (t.children.set y (some c'))).children =
                t.children.set y (some c') from rfl, hset] at hcg
              injection hcg with hcg
              injection hcg with hcg
              subst hcg
              rcases (ih emptyNode c' hc' ys).1 hpath with hl | hr
              · rw [hasPath_emptyNode] at hl
                subst hl
                exact Or.inr ⟨rfl, prefixOfWord_nil_left xs⟩
              · exact Or.inr ⟨rfl, hr⟩
            · rintro (⟨c, hcg, hpath⟩ | ⟨-, hpre⟩)
              · rw [ho] at hcg
                injection hcg with hcg
                exact absurd hcg (by simp)
              · exact ⟨c', hset, (ih emptyNode c' hc' ys).2 (Or.inr hpre)⟩
          · have hsetne : (t.children.set x (some c')).get? y =
                t.children.get? y := by
              rw [List.get?_eq_getElem?, List.get?_eq_getElem?]
              exact List.getElem?_set_ne (fun he => hyx he.symm)
            rw [hasPath_cons, hasPath_cons, prefixOfWord_cons,
              show (Node.mk (t.children.set x (some c'))).children =
                t.children.set x (some c') from rfl, hsetne]
            constructor
            · exact fun hp => Or.inl hp
            · rintro (hp | ⟨hyx', -⟩)
              · exact hp
              · exact absurd hyx' hyx

theorem nodeExists_correct (s : List Nat) (t : Node) (ht : WfNode t)
    (hs : s ≠ []) (hsc : ∀ c ∈ s, c < 26) :
    ∃ b, nodeExists s t = some b ∧ (b = true ↔ hasPath s t) := by
  induction s generalizing t with
  | nil => exact absurd rfl hs
  | cons x xs ih =>
    have hx : x < 26 := hsc x (by simp)
    have hlen : t.children.length = 26 := wf_children_length t ht
    have hget : ∃ o, t.children.get? x = some o := by
      rw [List.get?_eq_getElem?]
      have hx2 : x < t.children.length := by omega
      rw [List.getElem?_eq_getElem hx2]
      exact ⟨_, rfl⟩
    obtain ⟨o, ho⟩ := hget
    cases xs with
    | nil =>
      refine ⟨o.isSome, ?_, ?_⟩
      · rw [show nodeExists [x] t =
          (t.children.get? x).map Option.isSome from rfl, ho]
        rfl
      · cases o with
        | some c =>
          simp only [Option.isSome_some]
          constructor
          · intro _
            exact ⟨c, ho, trivial⟩
          · intro _
            trivial
        | none =>
          simp only [Option.isSome_none]
          constructor
          · intro hfalse
            exact absurd hfalse (by simp)
          · rintro ⟨c, hc, -⟩
            rw [ho] at hc
            injection hc with hc
            exact absurd hc (by simp)
    | cons y ys =>
      rw [show nodeExists (x :: y :: ys) t =
        (match t.children.get? x with
        | none => none
        | some none => some false
        | some (some child) => nodeExists (y :: ys) child) from rfl, ho]
      cases o with
      | none =>
        refine ⟨false, rfl, ?_⟩
        constructor
        · intro hfalse
          exact absurd hfalse (by simp)
        · rintro ⟨c, hc, -⟩
          rw [ho] at hc
          injection hc with hc
          exact absurd hc (by simp)
      | some child =>
        have hchild : WfNode child := wf_child t ht x child ho
        have hxs : ∀ c ∈ y :: ys, c < 26 := fun c hc => hsc c (by simp [hc])
        obtain ⟨b, hb, hiff⟩ := ih child hchild (by simp) hxs
        refine ⟨b, hb, ?_⟩
        rw [hiff, hasPath_cons]
        constructor
        · intro hp
          exact ⟨child, ho, hp⟩
        · rintro ⟨c, hc, hp⟩
          rw [ho] at hc
          injection hc with hc
          injection hc with hc
          subst hc
          exact hp

theorem foldAdd_spec (dict : List (List Nat)) (t : Node)
    (hd : ∀ w ∈ dict, ∀ c ∈ w, c < 26) (ht : WfNode t) :
    ∃ t', dict.foldlM (fun h w => nodeAdd w h) t = some t' ∧ WfNode t' ∧
      ∀ s, (hasPath s t' ↔ hasPath s t ∨ ∃ w ∈ dict, prefixOfWord s w) := by
  induction dict generalizing t with
  | nil =>
    refine ⟨t, rfl, ht, ?_⟩
    intro s
    simp
  | cons w ws ih =>
    have hw : ∀ c ∈ w, c < 26 := hd w (by simp)
    have hws : ∀ w' ∈ ws, ∀ c ∈ w', c < 26 :=
      fun w' hw' => hd w' (by simp [hw'])
    obtain ⟨t1, h1, wf1⟩ := nodeAdd_total w t hw ht
    obtain ⟨t', h2, wf2, hiff2⟩ := ih t1 hws wf1
    refine ⟨t', ?_, wf2, ?_⟩
    · show (nodeAdd w t).bind (fun t1 => ws.foldlM (fun h w => nodeAdd w h) t1)
        = some t'
      rw [h1, Option.some_bind]
      exact h2
    · intro s
      rw [hiff2 s, nodeAdd_path w t t1 h1 s]
      simp only [List.mem_cons, exists_eq_or_imp, or_assoc]

theorem dictTreeNew_spec (dict : List (List Nat))
    (hd : ∀ w ∈ dict, ∀ c ∈ w, c < 26) :
    ∃ t, dictTreeNew dict = some t ∧ WfNode t ∧
      ∀ s, (hasPath s t ↔ s = [] ∨ ∃ w ∈ dict, prefixOfWord s w) := by
  obtain ⟨t, h1, wf1, hiff⟩ := foldAdd_spec dict emptyNode hd wf_emptyNode
  refine ⟨t, h1, wf1, ?_⟩
  intro s
  rw [hiff s, hasPath_emptyNode]

/-- C10: for every dictionary whose words have symbols in `[0, 26)` and
every nonempty string `s` with symbols in `[0, 26)`, building the tree
succeeds and `DictTree::contains(s)` returns `true` if and only if `s` is a
(not necessarily strict) prefix of some word of the dictionary — in
particular `contains` is a prefix test, not exact word membership. -/
theorem c10_contains_prefix (dict : List (List Nat)) (s : List Nat)
    (hd : ∀ w ∈ dict, ∀ c ∈ w, c < 26) (hs : s ≠ [])
    (hsc : ∀ c ∈ s, c < 26) :
    ∃ t b, dictTreeNew dict = some t ∧ nodeExists s t = some b ∧
      dictContains dict s = some b ∧
      (b = true ↔ ∃ w ∈ dict, prefixOfWord s w) := by
  obtain ⟨t, h1, wf1, hiff⟩ := dictTreeNew_spec dict hd
  obtain ⟨b, hb, hbiff⟩ := nodeExists_correct s t wf1 hs hsc
  refine ⟨t, b, h1, hb, ?_, ?_⟩
  · show (dictTreeNew dict).bind (fun t => nodeExists s t) = some b
    rw [h1, Option.some_bind]
    exact hb
  · rw [hbiff, hiff s]
    constructor
    · rintro (hnil | hex)
      · exact absurd hnil hs
      · exact hex
    · exact Or.inr

/-- Witness for C10 at `dict = [[0, 1], [2]]`, `s = [0]` (a strict prefix of
the word `[0, 1]`). -/
theorem c10_contains_prefix_witness :
    (∀ w ∈ [[0, 1], [2]], ∀ c ∈ w, c < 26) ∧ ([0] : List Nat) ≠ [] ∧
    (∀ c ∈ [0], c < 26) ∧
    (∃ t b, dictTreeNew [[0, 1], [2]] = some t ∧
      nodeExists [0] t = some b ∧
      dictContains [[0, 1], [2]] [0] = some b ∧
      (b = true ↔ ∃ w ∈ [[0, 1], [2]], prefixOfWord [0] w)) :=
  ⟨by decide, by decide, by decide,
    c10_contains_prefix [[0, 1], [2]] [0] (by decide) (by decide)
      (by decide)⟩

end Vigenere
